import Mathlib

/-!
Verification of the job queue and pipeline coordinator of the
figma-sitemap-generator repository (src/workers/pool.js, src/workers/llm.js,
coordinator part).

The JavaScript code is shallowly embedded:
* JS `Map` becomes an association list with `Map.set` semantics (replace in
  place when the key exists, append otherwise);
* JS `Set` becomes a duplicate-free list;
* `Array.prototype.sort` (stable since ES2019, and V8's TimSort is stable)
  with the comparator `(a, b) => (jobA.priority || 5) - (jobB.priority || 5)`
  becomes a stable insertion sort keyed on the effective priority
  `priority || 5`; for a consistent comparator every stable sort computes the
  same list, so the embedding is faithful to the observable result;
* ISO timestamp fields (`createdAt`, `startedAt`, `completedAt`) are elided:
  no verified property reads them, and `cleanup`'s age cutoff is abstracted
  into an arbitrary selection predicate on job ids;
* a JS falsy number is modelled as the integer 0 (the only falsy value the
  code can produce for `priority`, which is always set to a number).
-/

/-- Job statuses (`STATUS` in pool.js). -/
inductive Status where
  | pending
  | running
  | complete
  | failed
deriving DecidableEq

/-- Job types (`JOB_TYPES` in pool.js). -/
inductive JType where
  | discover
  | scan
  | analyze
  | synthesize
deriving DecidableEq

instance : Fintype JType :=
  ⟨⟨{JType.discover, JType.scan, JType.analyze, JType.synthesize}, by decide⟩,
   fun t => by cases t <;> decide⟩

/-- The payload fields the core reads (`projectId`; everything else is opaque
to pool.js). -/
structure Payload where
  projectId : Nat
deriving DecidableEq

/-- A job record as constructed by `WorkerPool.addJob`.  `result` and `error`
values are abstracted to `Int` and `String`. -/
structure Job where
  id : Nat
  jtype : JType
  status : Status
  priority : Int
  payload : Payload
  result : Option Int := none
  error : Option String := none
  retries : Nat := 0
  maxRetries : Nat := 1
deriving DecidableEq

/-- Association-list embedding of the JS `Map` from job ids to jobs. -/
abbrev JMap := List (Nat × Job)

/-- `Map.get`. -/
def lookupJob (m : JMap) (i : Nat) : Option Job :=
  (m.find? (fun p => p.1 = i)).map (fun p => p.2)

/-- `Map.set`: replace in place when the key is present, append otherwise. -/
def setJob (m : JMap) (i : Nat) (j : Job) : JMap :=
  if m.any (fun p => p.1 = i) then
    m.map (fun p => if p.1 = i then (i, j) else p)
  else
    m ++ [(i, j)]

/-- The effective priority `job.priority || 5`: a falsy (zero) priority is
replaced by the default 5. -/
def effPriority (j : Job) : Int :=
  if j.priority = 0 then 5 else j.priority

/-- The sort key used by `JobQueue.add`'s comparator: `jobs.get(id).priority || 5`
(the `none` branch never fires in a reachable queue, where every pending id is
in the map). -/
def keyOf (m : JMap) (i : Nat) : Int :=
  match lookupJob m i with
  | some j => effPriority j
  | none => 5

/-- Insert `x` before the first element whose key is at least `key x`
(the stable position for an element originating to the LEFT of the rest). -/
def insertSorted (key : Nat → Int) (x : Nat) : List Nat → List Nat
  | [] => [x]
  | y :: ys => if key x ≤ key y then x :: y :: ys else y :: insertSorted key x ys

/-- Stable sort by `key`, the embedding of `pending.sort(comparator)`. -/
def jsSort (key : Nat → Int) : List Nat → List Nat
  | [] => []
  | x :: xs => insertSorted key x (jsSort key xs)

/-- Insert `x` after every element whose key is at most `key x` (the stable
position for an element APPENDED at the right end before sorting). -/
def insertEnd (key : Nat → Int) (x : Nat) : List Nat → List Nat
  | [] => [x]
  | y :: ys => if key y ≤ key x then y :: insertEnd key x ys else x :: y :: ys

/-- The pending order obtained by submitting `ids` one at a time: each new id
lands after all ids of equal or smaller key (stable sort of the submission
sequence). -/
def stableOrder (key : Nat → Int) (ids : List Nat) : List Nat :=
  ids.foldl (fun acc i => insertEnd key i acc) []

/-- The `JobQueue` state of pool.js: all jobs by id, pending ids (kept sorted
by priority), running ids. -/
structure JobQueue where
  jobs : JMap
  pending : List Nat
  running : List Nat
deriving DecidableEq

namespace JobQueue

/-- `new JobQueue()`. -/
def empty : JobQueue := ⟨[], [], []⟩

/-- `JobQueue.add`: store the job, push its id, re-sort pending by
`(jobs.get(id).priority || 5)`. -/
def add (q : JobQueue) (j : Job) : JobQueue :=
  let jobs' := setJob q.jobs j.id j
  { q with jobs := jobs', pending := jsSort (keyOf jobs') (q.pending ++ [j.id]) }

/-- `JobQueue.getNext`: pop the front of pending, mark it running, move the id
into the running set.  Returns `none` when pending is empty. -/
def getNext (q : JobQueue) : Option Job × JobQueue :=
  match q.pending with
  | [] => (none, q)
  | i :: rest =>
    match lookupJob q.jobs i with
    | none => (none, { q with pending := rest })
    | some j =>
      let j' := { j with status := Status.running }
      (some j', { jobs := setJob q.jobs i j', pending := rest,
                  running := if i ∈ q.running then q.running else q.running ++ [i] })

/-- `JobQueue.complete`: set status, store the result, drop from running.
Unknown ids are a no-op returning null in the JS. -/
def complete (q : JobQueue) (i : Nat) (r : Int) : JobQueue :=
  match lookupJob q.jobs i with
  | none => q
  | some j =>
    { q with jobs := setJob q.jobs i { j with status := Status.complete, result := some r },
             running := q.running.erase i }

/-- `JobQueue.fail`: symmetric to `complete` with an error string. -/
def fail (q : JobQueue) (i : Nat) (e : String) : JobQueue :=
  match lookupJob q.jobs i with
  | none => q
  | some j =>
    { q with jobs := setJob q.jobs i { j with status := Status.failed, error := some e },
             running := q.running.erase i }

/-- The retry branch of `WorkerPool.processJob`: bump `retries`, reset status
to pending, unshift the id onto the FRONT of pending, drop it from running. -/
def retryRequeue (q : JobQueue) (i : Nat) : JobQueue :=
  match lookupJob q.jobs i with
  | none => q
  | some j =>
    { q with jobs := setJob q.jobs i { j with status := Status.pending, retries := j.retries + 1 },
             pending := i :: q.pending,
             running := q.running.erase i }

/-- The record returned by `JobQueue.getStats`. -/
structure Stats where
  total : Nat
  pending : Nat
  running : Nat
  complete : Nat
  failed : Nat
deriving DecidableEq

/-- `JobQueue.getStats`: recomputed on demand from the three containers. -/
def getStats (q : JobQueue) : Stats :=
  { total := q.jobs.length,
    pending := q.pending.length,
    running := q.running.length,
    complete := (q.jobs.filter (fun p => p.2.status = Status.complete)).length,
    failed := (q.jobs.filter (fun p => p.2.status = Status.failed)).length }

/-- `JobQueue.hasPending`. -/
def hasPending (q : JobQueue) : Bool :=
  decide (q.pending.length > 0)

/-- `JobQueue.cleanup`, with the `completedAt < cutoff` age test abstracted
into the id predicate `sel`: delete the selected terminal jobs from the map. -/
def cleanupSel (q : JobQueue) (sel : Nat → Bool) : JobQueue :=
  let keep : Nat × Job → Bool := fun p =>
    !((p.2.status == Status.complete || p.2.status == Status.failed) && sel p.1)
  { q with jobs := q.jobs.filter keep }

end JobQueue

/-- Worker of `drain`, structurally recursive over the pending ids; it threads
the job-map and running-set updates that `getNext` performs. -/
def drainGo (m : JMap) (run : List Nat) : List Nat → List Job
  | [] => []
  | i :: rest =>
    match lookupJob m i with
    | none => []
    | some j =>
      let j' := { j with status := Status.running }
      j' :: drainGo (setJob m i j') (if i ∈ run then run else run ++ [i]) rest

/-- Repeated `getNext` until the queue is drained: the order in which
successive `GetNext` calls hand out jobs (`drain_getNext` below proves the
unfolding in terms of `JobQueue.getNext`). -/
def drain (q : JobQueue) : List Job :=
  drainGo q.jobs q.running q.pending

/-- `drain` is exactly the iteration of `JobQueue.getNext`. -/
theorem drain_getNext (q : JobQueue) :
    drain q = (match q.getNext with
               | (none, _) => []
               | (some j, q') => j :: drain q') := by
  rcases hp : q.pending with _ | ⟨i, rest⟩ <;>
    simp only [drain, JobQueue.getNext, hp, drainGo]
  rcases hl : lookupJob q.jobs i with _ | j <;> simp [hl, drainGo]

/-! ### Properties of the stable sort used by `JobQueue.add` -/

/-- Keys of a sorted list: pairwise non-decreasing. -/
abbrev KSorted (key : Nat → Int) (l : List Nat) : Prop :=
  l.Pairwise (fun a b => key a ≤ key b)

theorem insertSorted_perm (key : Nat → Int) (x : Nat) (l : List Nat) :
    List.Perm (insertSorted key x l) (x :: l) := by
  induction l with
  | nil => simp [insertSorted]
  | cons y ys ih =>
    by_cases hxy : key x ≤ key y
    · simp only [insertSorted, if_pos hxy]
      exact List.Perm.refl _
    · simp only [insertSorted, if_neg hxy]
      exact (ih.cons y).trans (List.Perm.swap x y ys)

theorem jsSort_perm (key : Nat → Int) (l : List Nat) : List.Perm (jsSort key l) l := by
  induction l with
  | nil => simp [jsSort]
  | cons x xs ih =>
    exact (insertSorted_perm key x (jsSort key xs)).trans (ih.cons x)

theorem insertSorted_sorted (key : Nat → Int) (x : Nat) {l : List Nat}
    (h : KSorted key l) : KSorted key (insertSorted key x l) := by
  induction l with
  | nil => simp [insertSorted]
  | cons y ys ih =>
    rcases List.pairwise_cons.mp h with ⟨hy, hys⟩
    by_cases hxy : key x ≤ key y
    · simp only [insertSorted, if_pos hxy]
      refine List.pairwise_cons.mpr ⟨?_, h⟩
      intro z hz
      rcases List.mem_cons.mp hz with rfl | hz
      · exact hxy
      · exact le_trans hxy (hy z hz)
    · simp only [insertSorted, if_neg hxy]
      refine List.pairwise_cons.mpr ⟨?_, ih hys⟩
      intro z hz
      have hz' := (insertSorted_perm key x ys).mem_iff.mp hz
      rcases List.mem_cons.mp hz' with rfl | hz'
      · omega
      · exact hy z hz'

theorem jsSort_sorted (key : Nat → Int) (l : List Nat) : KSorted key (jsSort key l) := by
  induction l with
  | nil => simp [jsSort]
  | cons x xs ih => exact insertSorted_sorted key x ih

theorem insertEnd_perm (key : Nat → Int) (x : Nat) (l : List Nat) :
    List.Perm (insertEnd key x l) (x :: l) := by
  induction l with
  | nil => simp [insertEnd]
  | cons y ys ih =>
    by_cases hxy : key y ≤ key x
    · simp only [insertEnd, if_pos hxy]
      exact (ih.cons y).trans (List.Perm.swap x y ys)
    · simp only [insertEnd, if_neg hxy]
      exact List.Perm.refl _

theorem insertEnd_sorted (key : Nat → Int) (x : Nat) {l : List Nat}
    (h : KSorted key l) : KSorted key (insertEnd key x l) := by
  induction l with
  | nil => simp [insertEnd]
  | cons y ys ih =>
    rcases List.pairwise_cons.mp h with ⟨hy, hys⟩
    by_cases hxy : key y ≤ key x
    · simp only [insertEnd, if_pos hxy]
      refine List.pairwise_cons.mpr ⟨?_, ih hys⟩
      intro z hz
      have hz' := (insertEnd_perm key x ys).mem_iff.mp hz
      rcases List.mem_cons.mp hz' with rfl | hz'
      · exact hxy
      · exact hy z hz'
    · simp only [insertEnd, if_neg hxy]
      refine List.pairwise_cons.mpr ⟨?_, h⟩
      intro z hz
      rcases List.mem_cons.mp hz with rfl | hz
      · omega
      · exact le_trans (by omega) (hy z hz)

theorem insertSorted_eq_cons (key : Nat → Int) (x : Nat) {l : List Nat}
    (h : ∀ z ∈ l, key x ≤ key z) : insertSorted key x l = x :: l := by
  cases l with
  | nil => rfl
  | cons y ys => simp [insertSorted, h y (by simp)]

theorem insertEnd_eq_cons (key : Nat → Int) (x : Nat) {l : List Nat}
    (h : ∀ z ∈ l, key x < key z) : insertEnd key x l = x :: l := by
  cases l with
  | nil => rfl
  | cons y ys =>
    have := h y (by simp)
    simp only [insertEnd]
    rw [if_neg (by omega)]

/-- Stably sorting an already sorted list with one element appended places the
new element after all equal keys: the JS `push`-then-`sort` of `JobQueue.add`
equals `insertEnd`. -/
theorem jsSort_sorted_append (key : Nat → Int) (x : Nat) {s : List Nat}
    (h : KSorted key s) : jsSort key (s ++ [x]) = insertEnd key x s := by
  induction s with
  | nil => simp [jsSort, insertSorted, insertEnd]
  | cons y ys ih =>
    rcases List.pairwise_cons.mp h with ⟨hy, hys⟩
    rw [List.cons_append]
    have step : jsSort key (y :: (ys ++ [x])) = insertSorted key y (jsSort key (ys ++ [x])) := rfl
    rw [step, ih hys]
    by_cases hxy : key y ≤ key x
    · rw [insertSorted_eq_cons key y (fun z hz => ?Hz)]
      case Hz =>
        have hz' := (insertEnd_perm key x ys).mem_iff.mp hz
        rcases List.mem_cons.mp hz' with rfl | hz'
        · exact hxy
        · exact hy z hz'
      have hend : insertEnd key x (y :: ys) = y :: insertEnd key x ys := by
        simp only [insertEnd, if_pos hxy]
      rw [hend]
    · have hx : key x < key y := by omega
      rw [insertEnd_eq_cons key x (fun z hz => lt_of_lt_of_le hx (hy z hz))]
      have hins : insertSorted key y (x :: ys) = x :: insertSorted key y ys := by
        simp only [insertSorted]
        rw [if_neg (by omega)]
      rw [hins, insertSorted_eq_cons key y hy]
      have hend : insertEnd key x (y :: ys) = x :: y :: ys := by
        simp only [insertEnd]
        rw [if_neg (by omega)]
      rw [hend]

theorem insertEnd_filter (key : Nat → Int) (p : Int) (x : Nat) {l : List Nat}
    (h : KSorted key l) :
    (insertEnd key x l).filter (fun i => decide (key i = p)) =
      (if key x = p then l.filter (fun i => decide (key i = p)) ++ [x]
       else l.filter (fun i => decide (key i = p))) := by
  induction l with
  | nil =>
    by_cases hx : key x = p <;> simp [insertEnd, hx]
  | cons y ys ih =>
    rcases List.pairwise_cons.mp h with ⟨hy, hys⟩
    by_cases hxy : key y ≤ key x
    · simp only [insertEnd, if_pos hxy, List.filter_cons, ih hys]
      by_cases hyp : key y = p <;> by_cases hxp : key x = p <;>
        simp [hyp, hxp]
    · have hx : key x < key y := by omega
      have hnone : ∀ z ∈ y :: ys, key x = p → ¬(key z = p) := by
        intro z hz hxp
        rcases List.mem_cons.mp hz with rfl | hz
        · omega
        · have := hy z hz; omega
      simp only [insertEnd, if_neg hxy, List.filter_cons]
      by_cases hxp : key x = p
      · have hfy : ¬(key y = p) := hnone y (by simp) hxp
        have hfys : ys.filter (fun i => decide (key i = p)) = [] := by
          apply List.filter_eq_nil_iff.mpr
          intro z hz
          simp only [decide_eq_true_eq]
          exact hnone z (List.mem_cons_of_mem y hz) hxp
        simp [hxp, hfy, hfys]
      · simp [hxp]

theorem foldl_insertEnd_sorted (key : Nat → Int) (ids : List Nat) {acc : List Nat}
    (h : KSorted key acc) :
    KSorted key (ids.foldl (fun a i => insertEnd key i a) acc) := by
  induction ids generalizing acc with
  | nil => simpa
  | cons i ids ih => exact ih (insertEnd_sorted key i h)

theorem stableOrder_sorted (key : Nat → Int) (ids : List Nat) :
    KSorted key (stableOrder key ids) :=
  foldl_insertEnd_sorted key ids (by simp)

theorem foldl_insertEnd_perm (key : Nat → Int) (ids : List Nat) (acc : List Nat) :
    List.Perm (ids.foldl (fun a i => insertEnd key i a) acc) (acc ++ ids) := by
  induction ids generalizing acc with
  | nil => simp
  | cons i ids ih =>
    have h1 := ih (insertEnd key i acc)
    have hpe : List.Perm (insertEnd key i acc) (acc ++ [i]) :=
      (insertEnd_perm key i acc).trans (List.perm_append_singleton i acc).symm
    have h2 : List.Perm (insertEnd key i acc ++ ids) (acc ++ i :: ids) := by
      have h3 := List.Perm.append_right ids hpe
      simpa using h3
    exact h1.trans h2

theorem foldl_insertEnd_filter (key : Nat → Int) (p : Int) (ids : List Nat)
    {acc : List Nat} (h : KSorted key acc) :
    (ids.foldl (fun a i => insertEnd key i a) acc).filter (fun i => decide (key i = p)) =
      acc.filter (fun i => decide (key i = p)) ++ ids.filter (fun i => decide (key i = p)) := by
  induction ids generalizing acc with
  | nil => simp
  | cons i ids ih =>
    have hstep := ih (insertEnd_sorted key i h)
    have hins := insertEnd_filter key p i h
    show (ids.foldl (fun a i => insertEnd key i a) (insertEnd key i acc)).filter _ = _
    rw [hstep, hins]
    by_cases hip : key i = p
    · simp [hip, List.filter_cons]
    · simp [hip, List.filter_cons]

/-- FIFO stability of the pending order: within one priority class, ids appear
in submission order. -/
theorem stableOrder_filter (key : Nat → Int) (p : Int) (ids : List Nat) :
    (stableOrder key ids).filter (fun i => decide (key i = p)) =
      ids.filter (fun i => decide (key i = p)) := by
  have hacc : KSorted key ([] : List Nat) := by simp
  have h := foldl_insertEnd_filter key p ids hacc
  simpa [stableOrder] using h

theorem insertEnd_congr {key key' : Nat → Int} (x : Nat) {l : List Nat}
    (h : ∀ z ∈ x :: l, key z = key' z) :
    insertEnd key x l = insertEnd key' x l := by
  induction l with
  | nil => rfl
  | cons y ys ih =>
    have hx : key x = key' x := h x (by simp)
    have hy : key y = key' y := h y (by simp)
    have hrest : ∀ z ∈ x :: ys, key z = key' z := by
      intro z hz
      rcases List.mem_cons.mp hz with rfl | hz
      · exact hx
      · exact h z (by simp [hz])
    simp only [insertEnd, hx, hy, ih hrest]

theorem foldl_insertEnd_congr {key key' : Nat → Int} (ids : List Nat) {acc : List Nat}
    (h : ∀ z ∈ acc ++ ids, key z = key' z) :
    ids.foldl (fun a i => insertEnd key i a) acc =
      ids.foldl (fun a i => insertEnd key' i a) acc := by
  induction ids generalizing acc with
  | nil => rfl
  | cons i ids ih =>
    have hi : ∀ z ∈ i :: acc, key z = key' z := by
      intro z hz
      rcases List.mem_cons.mp hz with rfl | hz
      · exact h z (by simp)
      · exact h z (by simp [hz])
    have hstep : insertEnd key i acc = insertEnd key' i acc := insertEnd_congr i hi
    show ids.foldl (fun a i => insertEnd key i a) (insertEnd key i acc) = _
    rw [hstep]
    apply ih
    intro z hz
    rcases List.mem_append.mp hz with hz | hz
    · have := (insertEnd_perm key' i acc).mem_iff.mp hz
      rcases List.mem_cons.mp this with rfl | hz'
      · exact h z (by simp)
      · exact h z (by simp [hz'])
    · exact h z (by simp [hz])

theorem stableOrder_congr {key key' : Nat → Int} (ids : List Nat)
    (h : ∀ z ∈ ids, key z = key' z) :
    stableOrder key ids = stableOrder key' ids :=
  foldl_insertEnd_congr ids (by simpa using h)

theorem stableOrder_append (key : Nat → Int) (ids : List Nat) (x : Nat) :
    stableOrder key (ids ++ [x]) = insertEnd key x (stableOrder key ids) := by
  simp [stableOrder]

/-! ### Properties of the job map -/

theorem lookupJob_append_ne (m : JMap) (k : Nat) (j : Job) {i : Nat} (h : i ≠ k) :
    lookupJob (m ++ [(k, j)]) i = lookupJob m i := by
  simp only [lookupJob, List.find?_append]
  rcases hm : m.find? (fun p => p.1 = i) with _ | p
  · simp [hm, List.find?, h.symm]
  · simp [hm]

theorem lookupJob_append_self (m : JMap) (k : Nat) (j : Job)
    (h : lookupJob m k = none) : lookupJob (m ++ [(k, j)]) k = some j := by
  have hm : m.find? (fun p => p.1 = k) = none := by
    simp only [lookupJob, Option.map_eq_none'] at h
    exact h
  simp only [lookupJob, List.find?_append, hm, Option.none_or]
  simp [List.find?]

theorem setJob_of_lookup_none (m : JMap) (k : Nat) (j : Job)
    (h : lookupJob m k = none) : setJob m k j = m ++ [(k, j)] := by
  simp only [setJob]
  rw [if_neg]
  simp only [lookupJob, Option.map_eq_none'] at h
  rw [List.find?_eq_none] at h
  simp only [List.any_eq_true, not_exists]
  push_neg
  intro p hp
  have := h p hp
  simpa using this

theorem lookupJob_eq_none_of_not_mem (m : JMap) {i : Nat}
    (h : i ∉ m.map Prod.fst) : lookupJob m i = none := by
  simp only [lookupJob, Option.map_eq_none']
  rw [List.find?_eq_none]
  intro p hp
  simp only [decide_eq_true_eq]
  intro hpi
  exact h (List.mem_map.mpr ⟨p, hp, hpi⟩)

theorem find?_map_replace (m : JMap) (k : Nat) (j : Job) {i : Nat} (h : i ≠ k) :
    (m.map (fun p => if p.1 = k then (k, j) else p)).find? (fun p => decide (p.1 = i)) =
      m.find? (fun p => decide (p.1 = i)) := by
  induction m with
  | nil => rfl
  | cons p m ihm =>
    by_cases hp : p.1 = k
    · have h1 : (if p.1 = k then (k, j) else p) = (k, j) := if_pos hp
      simp only [List.map_cons, h1, List.find?]
      have hd : decide ((k, j).1 = i) = false := by simp [Ne.symm h]
      have hd' : decide (p.1 = i) = false := by simp [hp, Ne.symm h]
      rw [hd, hd']
      exact ihm
    · have h1 : (if p.1 = k then (k, j) else p) = p := if_neg hp
      simp only [List.map_cons, h1, List.find?]
      cases hd : decide (p.1 = i)
      · exact ihm
      · rfl

theorem lookupJob_setJob_ne (m : JMap) (k : Nat) (j : Job) {i : Nat} (h : i ≠ k) :
    lookupJob (setJob m k j) i = lookupJob m i := by
  simp only [setJob]
  split
  · simp only [lookupJob, find?_map_replace m k j h]
  · exact lookupJob_append_ne m k j h

/-- A default job record (used only to totalize `find?`-based accessors). -/
def defJob : Job :=
  { id := 0, jtype := JType.discover, status := Status.pending, priority := 0,
    payload := { projectId := 0 } }

/-- The job of `js` carrying id `i` (meaningful when such a job exists). -/
def findJobIn (js : List Job) (i : Nat) : Job :=
  (js.find? (fun j => decide (j.id = i))).getD defJob

theorem findJobIn_id {js : List Job} {i : Nat} (h : i ∈ js.map Job.id) :
    (findJobIn js i).id = i := by
  induction js with
  | nil => simp at h
  | cons j js ih =>
    by_cases hj : j.id = i
    · simp [findJobIn, List.find?, hj]
    · have h' : i ∈ js.map Job.id := by
        rcases List.mem_map.mp h with ⟨j', hj', hid⟩
        rcases List.mem_cons.mp hj' with rfl | hmem
        · exact absurd hid hj
        · exact List.mem_map.mpr ⟨j', hmem, hid⟩
      simpa [findJobIn, List.find?, hj] using ih h'

theorem lookupJob_map_pair {js : List Job} {i : Nat}
    (h : i ∈ js.map Job.id) :
    lookupJob (js.map (fun j => (j.id, j))) i = some (findJobIn js i) := by
  induction js with
  | nil => simp at h
  | cons j js ih =>
    by_cases hj : j.id = i
    · simp [lookupJob, findJobIn, List.find?, hj]
    · have h' : i ∈ js.map Job.id := by
        rcases List.mem_map.mp h with ⟨j', hj', hid⟩
        rcases List.mem_cons.mp hj' with rfl | hmem
        · exact absurd hid hj
        · exact List.mem_map.mpr ⟨j', hmem, hid⟩
      simpa [lookupJob, findJobIn, List.find?, hj] using ih h'

theorem findJobIn_self {js : List Job} {j : Job} (hnd : (js.map Job.id).Nodup)
    (h : j ∈ js) : findJobIn js j.id = j := by
  induction js with
  | nil => simp at h
  | cons j0 js ih =>
    rcases List.mem_cons.mp h with rfl | hmem
    · simp [findJobIn, List.find?]
    · have hne : j0.id ≠ j.id := by
        intro he
        have : j.id ∈ js.map Job.id := List.mem_map.mpr ⟨j, hmem, rfl⟩
        rw [← he] at this
        exact (List.nodup_cons.mp (by simpa using hnd)).1 this
      have hnd' : (js.map Job.id).Nodup := (List.nodup_cons.mp (by simpa using hnd)).2
      simpa [findJobIn, List.find?, hne] using ih hnd' hmem

/-- Draining a queue whose pending ids all resolve in the map hands out the
stored jobs, marked running, in exactly the pending order. -/
theorem drainGo_eq_map (l : List Nat) : ∀ (m : JMap) (run : List Nat) (f : Nat → Job),
    (∀ i ∈ l, lookupJob m i = some (f i)) → l.Nodup →
    drainGo m run l = l.map (fun i => { f i with status := Status.running }) := by
  induction l with
  | nil =>
    intro m run f _ _
    rfl
  | cons i rest ih =>
    intro m run f hlook hnd
    have hi := hlook i (by simp)
    simp only [drainGo, hi, List.map_cons]
    congr 1
    apply ih _ _ f _ (List.nodup_cons.mp hnd).2
    intro i' hi'
    have hne : i' ≠ i := by
      intro he
      exact (List.nodup_cons.mp hnd).1 (he ▸ hi')
    rw [lookupJob_setJob_ne _ _ _ hne]
    exact hlook i' (List.mem_cons_of_mem i hi')

theorem drain_eq_map {q : JobQueue} {f : Nat → Job}
    (hlook : ∀ i ∈ q.pending, lookupJob q.jobs i = some (f i))
    (hnd : q.pending.Nodup) :
    drain q = q.pending.map (fun i => { f i with status := Status.running }) :=
  drainGo_eq_map q.pending q.jobs q.running f hlook hnd

/-- State after submitting `js` (fresh ids) into an empty queue: the map holds
exactly the submitted jobs and pending is their stable order by effective
priority. -/
theorem foldl_add_spec (js : List Job) (h : (js.map Job.id).Nodup) :
    (js.foldl JobQueue.add JobQueue.empty).jobs = js.map (fun j => (j.id, j)) ∧
    (js.foldl JobQueue.add JobQueue.empty).pending =
      stableOrder (keyOf (js.map (fun j => (j.id, j)))) (js.map Job.id) ∧
    (js.foldl JobQueue.add JobQueue.empty).running = [] := by
  induction js using List.reverseRecOn with
  | nil => exact ⟨rfl, rfl, rfl⟩
  | append_singleton js jn ih =>
    have hnd' : (js.map Job.id).Nodup := by
      rw [List.map_append] at h
      exact (List.nodup_append.mp h).1
    have hfresh : jn.id ∉ js.map Job.id := by
      rw [List.map_append] at h
      have := (List.nodup_append.mp h).2.2
      intro hmem
      exact this hmem (by simp)
    obtain ⟨hjobs, hpend, hrun⟩ := ih hnd'
    rw [List.foldl_append]
    set Q := js.foldl JobQueue.add JobQueue.empty with hQ
    simp only [List.foldl_cons, List.foldl_nil]
    have hlooknone : lookupJob Q.jobs jn.id = none := by
      rw [hjobs]
      apply lookupJob_eq_none_of_not_mem
      intro hmem
      apply hfresh
      rcases List.mem_map.mp hmem with ⟨p, hp, hfst⟩
      rcases List.mem_map.mp hp with ⟨j', hj', rfl⟩
      exact List.mem_map.mpr ⟨j', hj', hfst⟩
    have hset : setJob Q.jobs jn.id jn = (js ++ [jn]).map (fun j => (j.id, j)) := by
      rw [setJob_of_lookup_none _ _ _ hlooknone, hjobs, List.map_append]
      rfl
    have hkey : ∀ i ∈ js.map Job.id,
        keyOf ((js ++ [jn]).map (fun j => (j.id, j))) i =
          keyOf (js.map (fun j => (j.id, j))) i := by
      intro i hi
      have hne : i ≠ jn.id := fun he => hfresh (he ▸ hi)
      simp only [keyOf, List.map_append]
      rw [show (List.map (fun j => (j.id, j)) [jn]) = [(jn.id, jn)] from rfl,
          lookupJob_append_ne _ _ _ hne]
    refine ⟨?_, ?_, ?_⟩
    · simp only [JobQueue.add]
      rw [hset]
    · simp only [JobQueue.add]
      rw [hset, hpend]
      have hcongr : stableOrder (keyOf (js.map (fun j => (j.id, j)))) (js.map Job.id) =
          stableOrder (keyOf ((js ++ [jn]).map (fun j => (j.id, j)))) (js.map Job.id) :=
        (stableOrder_congr _ (fun z hz => (hkey z hz).symm))
      rw [hcongr]
      rw [jsSort_sorted_append _ _ (stableOrder_sorted _ _)]
      rw [← stableOrder_append]
      congr 1
      simp
    · simp only [JobQueue.add]
      exact hrun

theorem stableOrder_perm (key : Nat → Int) (ids : List Nat) :
    List.Perm (stableOrder key ids) ids := by
  simpa [stableOrder] using foldl_insertEnd_perm key ids []

/-- C1 (amended): for every sequence of `Add` calls into one `JobQueue` with
fresh ids and no retries interleaved, successive `GetNext` calls return the
jobs in non-decreasing EFFECTIVE priority order — effective priority being
`priority || 5`, i.e. a zero priority counts as the default 5 — and among jobs
of equal effective priority, in submission order (FIFO stability). -/
theorem getNext_order_c1 (js : List Job) (h : (js.map Job.id).Nodup) :
    List.Pairwise (fun a b => effPriority a ≤ effPriority b)
      (drain (js.foldl JobQueue.add JobQueue.empty)) ∧
    ∀ p : Int,
      ((drain (js.foldl JobQueue.add JobQueue.empty)).filter
          (fun jb => decide (effPriority jb = p))).map Job.id =
        (js.filter (fun jb => decide (effPriority jb = p))).map Job.id := by
  obtain ⟨hjobs, hpend, -⟩ := foldl_add_spec js h
  set Q := js.foldl JobQueue.add JobQueue.empty with hQ
  set m' := js.map (fun j => (j.id, j)) with hm'
  set ids := js.map Job.id with hids
  set key := keyOf m' with hkey
  have hpermP : List.Perm Q.pending ids := hpend ▸ stableOrder_perm key ids
  have hndP : Q.pending.Nodup := hpermP.nodup_iff.mpr h
  have hmemP : ∀ i ∈ Q.pending, i ∈ ids := fun i hi => hpermP.mem_iff.mp hi
  have hlook : ∀ i ∈ Q.pending, lookupJob Q.jobs i = some (findJobIn js i) := by
    intro i hi
    rw [hjobs]
    exact lookupJob_map_pair (hmemP i hi)
  have hdrain := drain_eq_map hlook hndP
  have hkeyval : ∀ i ∈ ids, key i = effPriority (findJobIn js i) := by
    intro i hi
    simp only [hkey, keyOf, hm', lookupJob_map_pair hi]
  have hkeyjob : ∀ j ∈ js, key j.id = effPriority j := by
    intro j hj
    rw [hkeyval j.id (List.mem_map.mpr ⟨j, hj, rfl⟩), findJobIn_self h hj]
  have heffmark : ∀ jb : Job, effPriority { jb with status := Status.running } = effPriority jb :=
    fun jb => rfl
  constructor
  · rw [hdrain]
    rw [List.pairwise_map]
    have hsorted : KSorted key Q.pending := hpend ▸ stableOrder_sorted key ids
    refine hsorted.imp_of_mem ?_
    intro a b ha hb hab
    rw [heffmark, heffmark, ← hkeyval a (hmemP a ha), ← hkeyval b (hmemP b hb)]
    exact hab
  · intro p
    rw [hdrain]
    rw [List.filter_map, List.map_map]
    have hfcongr : Q.pending.filter
        ((fun jb => decide (effPriority jb = p)) ∘
          (fun i => { findJobIn js i with status := Status.running })) =
        Q.pending.filter (fun i => decide (key i = p)) := by
      apply List.filter_congr
      intro i hi
      simp only [Function.comp_apply, heffmark, ← hkeyval i (hmemP i hi)]
    rw [hfcongr]
    have hidmap : (Q.pending.filter (fun i => decide (key i = p))).map
        (Job.id ∘ fun i => { findJobIn js i with status := Status.running }) =
        (Q.pending.filter (fun i => decide (key i = p))).map (fun i => i) := by
      apply List.map_congr_left
      intro i hi
      have hi' : i ∈ Q.pending := List.mem_of_mem_filter hi
      simp only [Function.comp_apply]
      exact findJobIn_id (hmemP i hi')
    rw [hidmap, List.map_id']
    rw [hpend, stableOrder_filter]
    rw [hids, List.filter_map]
    congr 1
    apply List.filter_congr
    intro j hj
    simp only [Function.comp_apply, hkeyjob j hj]

/-- A pending scan job with a chosen id and priority (helper for concrete
instances). -/
def mkSimpleJob (i : Nat) (pr : Int) : Job :=
  { id := i, jtype := JType.scan, status := Status.pending, priority := pr,
    payload := { projectId := 1 } }

/-- C1 counterexample: submit priority 3 then priority 0.  `GetNext` returns
the priority-3 job first and the priority-0 job second (a falsy priority sorts
as the default 5), so the raw priorities handed out are 3 then 0 — not
non-decreasing, refuting the claim as stated for priority value 0. -/
theorem getNext_order_c1_cex :
    ¬ List.Pairwise (fun a b => a.priority ≤ b.priority)
      (drain ([mkSimpleJob 0 3, mkSimpleJob 1 0].foldl JobQueue.add JobQueue.empty)) := by
  decide

/-- C1 witness: a concrete three-job submission satisfying the hypotheses. -/
theorem getNext_order_c1_witness :
    ([mkSimpleJob 0 2, mkSimpleJob 1 1, mkSimpleJob 2 1].map Job.id).Nodup ∧
    (List.Pairwise (fun a b => effPriority a ≤ effPriority b)
      (drain ([mkSimpleJob 0 2, mkSimpleJob 1 1, mkSimpleJob 2 1].foldl
        JobQueue.add JobQueue.empty)) ∧
    ∀ p : Int,
      ((drain ([mkSimpleJob 0 2, mkSimpleJob 1 1, mkSimpleJob 2 1].foldl
          JobQueue.add JobQueue.empty)).filter
          (fun jb => decide (effPriority jb = p))).map Job.id =
        (([mkSimpleJob 0 2, mkSimpleJob 1 1, mkSimpleJob 2 1].filter
          (fun jb => decide (effPriority jb = p)))).map Job.id) :=
  ⟨by decide, getNext_order_c1 [mkSimpleJob 0 2, mkSimpleJob 1 1, mkSimpleJob 2 1] (by decide)⟩

/-- Per-type worker configuration (`{concurrency, timeout, retries}`). -/
structure TypeConfig where
  concurrency : Nat
  timeout : Nat
  retries : Nat
deriving DecidableEq

/-- The WorkerPool constructor defaults. -/
def defaultConfig : JType → TypeConfig
  | JType.discover => ⟨2, 30000, 1⟩
  | JType.scan => ⟨4, 60000, 2⟩
  | JType.analyze => ⟨2, 120000, 1⟩
  | JType.synthesize => ⟨1, 300000, 1⟩

/-- The job record constructed by `WorkerPool.addJob` (the generated unique id
is supplied as `i`): `priority: options.priority || 5`,
`maxRetries: this.config[type]?.retries || 1`. -/
def mkPoolJob (cfg : JType → TypeConfig) (i : Nat) (t : JType) (pl : Payload)
    (priorityOpt : Int) : Job :=
  { id := i, jtype := t, status := Status.pending,
    priority := if priorityOpt = 0 then 5 else priorityOpt,
    payload := pl,
    result := none, error := none, retries := 0,
    maxRetries := if (cfg t).retries = 0 then 1 else (cfg t).retries }

theorem drain_two_ids (a b : Job) (hne : a.id ≠ b.id) :
    (drain ([a, b].foldl JobQueue.add JobQueue.empty)).map Job.id =
      (if effPriority a ≤ effPriority b then [a.id, b.id] else [b.id, a.id]) := by
  have hnd : ([a, b].map Job.id).Nodup := by simp [hne]
  obtain ⟨hjobs, hpend, -⟩ := foldl_add_spec [a, b] hnd
  set Q := [a, b].foldl JobQueue.add JobQueue.empty with hQ
  set key := keyOf ([a, b].map (fun j => (j.id, j))) with hkey
  have hka : key a.id = effPriority a := by
    rw [hkey, keyOf, lookupJob_map_pair (by simp), findJobIn_self hnd (by simp)]
  have hkb : key b.id = effPriority b := by
    rw [hkey, keyOf, lookupJob_map_pair (by simp), findJobIn_self hnd (by simp)]
  have hso : stableOrder key [a.id, b.id] =
      (if effPriority a ≤ effPriority b then [a.id, b.id] else [b.id, a.id]) := by
    by_cases hab : effPriority a ≤ effPriority b <;>
      simp [stableOrder, insertEnd, hka, hkb, hab]
  have hpend' : Q.pending = (if effPriority a ≤ effPriority b
      then [a.id, b.id] else [b.id, a.id]) := by
    rw [hpend]
    show stableOrder key [a.id, b.id] = _
    exact hso
  have hmemP : ∀ i ∈ Q.pending, i ∈ [a, b].map Job.id := by
    intro i hi
    rw [hpend'] at hi
    have hior : i = a.id ∨ i = b.id := by
      by_cases hab : effPriority a ≤ effPriority b <;> simp [hab] at hi <;> tauto
    rcases hior with rfl | rfl <;> simp
  have hlook : ∀ i ∈ Q.pending, lookupJob Q.jobs i = some (findJobIn [a, b] i) := by
    intro i hi
    rw [hjobs]
    exact lookupJob_map_pair (hmemP i hi)
  have hndP : Q.pending.Nodup := by
    rw [hpend']
    by_cases hab : effPriority a ≤ effPriority b <;> simp [hab, hne, Ne.symm hne]
  rw [drain_eq_map hlook hndP, List.map_map]
  have : Q.pending.map (Job.id ∘ fun i => { findJobIn [a, b] i with status := Status.running }) =
      Q.pending.map (fun i => i) := by
    apply List.map_congr_left
    intro i hi
    exact findJobIn_id (hmemP i hi)
  rw [this, List.map_id']
  exact hpend'

/-- C10: `addJob(type, payload, {priority: 0})` builds the job with priority 5
(`options.priority || 5` treats the falsy 0 as absent), and consequently a job
submitted at priority 0 is dequeued AFTER, not before, a job at any priority
1..4, in either submission order. -/
theorem addJob_priority_zero_c10 (cfg : JType → TypeConfig) (i : Nat) (t : JType)
    (pl pl' : Payload) (p : Int) (hp1 : 1 ≤ p) (hp4 : p ≤ 4) :
    (mkPoolJob cfg i t pl 0).priority = 5 ∧
    (drain ([mkPoolJob cfg 0 t pl 0, mkPoolJob cfg 1 t pl' p].foldl
        JobQueue.add JobQueue.empty)).map Job.id = [1, 0] ∧
    (drain ([mkPoolJob cfg 1 t pl' p, mkPoolJob cfg 0 t pl 0].foldl
        JobQueue.add JobQueue.empty)).map Job.id = [1, 0] := by
  have heff0 : effPriority (mkPoolJob cfg 0 t pl 0) = 5 := by
    simp [effPriority, mkPoolJob]
  have heff1 : effPriority (mkPoolJob cfg 1 t pl' p) = p := by
    simp only [effPriority, mkPoolJob]
    rw [if_neg (by omega)]
    rw [if_neg (by omega)]
  refine ⟨by simp [mkPoolJob], ?_, ?_⟩
  · rw [drain_two_ids _ _ (by simp [mkPoolJob]), heff0, heff1, if_neg (by omega)]
    simp [mkPoolJob]
  · rw [drain_two_ids _ _ (by simp [mkPoolJob]), heff0, heff1, if_pos (by omega)]
    simp [mkPoolJob]

/-- C10 witness: priority option 0 against a priority-2 job. -/
theorem addJob_priority_zero_c10_witness :
    (1 : Int) ≤ 2 ∧ (2 : Int) ≤ 4 ∧
    ((mkPoolJob defaultConfig 7 JType.scan { projectId := 1 } 0).priority = 5 ∧
    (drain ([mkPoolJob defaultConfig 0 JType.scan { projectId := 1 } 0,
             mkPoolJob defaultConfig 1 JType.scan { projectId := 1 } 2].foldl
        JobQueue.add JobQueue.empty)).map Job.id = [1, 0] ∧
    (drain ([mkPoolJob defaultConfig 1 JType.scan { projectId := 1 } 2,
             mkPoolJob defaultConfig 0 JType.scan { projectId := 1 } 0].foldl
        JobQueue.add JobQueue.empty)).map Job.id = [1, 0]) :=
  ⟨by norm_num, by norm_num,
   addJob_priority_zero_c10 defaultConfig 7 JType.scan { projectId := 1 }
     { projectId := 1 } 2 (by norm_num) (by norm_num)⟩

/-! ### The WorkerPool scheduling loop (C2) -/

/-- The scheduling-relevant state of a `WorkerPool`: per type, the queue's
pending ids, the queue's running ids, and the `activeWorkers` counter. -/
structure PoolState where
  pending : JType → List Nat
  running : JType → List Nat
  active : JType → Nat

/-- The freshly constructed pool: empty queues, all counters zero. -/
def initPool : PoolState :=
  { pending := fun _ => [], running := fun _ => [], active := fun _ => 0 }

/-- One pass of the `while` loop of `WorkerPool.processQueue`: while pending
is non-empty and `activeWorkers[type] < config[type].concurrency`, dequeue the
front id (`getNext` moves it into the queue's running set) and increment the
counter.  Returns the new pending list, running set, and counter. -/
def processQueue (limit : Nat) : List Nat → List Nat → Nat → (List Nat × List Nat × Nat)
  | [], run, act => ([], run, act)
  | i :: rest, run, act =>
    if act < limit then
      processQueue limit rest (if i ∈ run then run else run ++ [i]) (act + 1)
    else
      (i :: rest, run, act)

/-- `processQueue` applied to the state's components for one type. -/
def applySched (cfg : JType → TypeConfig) (t : JType) (s : PoolState) : PoolState :=
  let r := processQueue (cfg t).concurrency (s.pending t) (s.running t) (s.active t)
  { pending := fun u => if u = t then r.1 else s.pending u,
    running := fun u => if u = t then r.2.1 else s.running u,
    active := fun u => if u = t then r.2.2 else s.active u }

/-- Atomic transitions of the pool between suspension points of the
single-threaded event loop: a scheduling pass for one type; a job of type `t`
finishing terminally (`complete`/`fail` removes it from running, then the
`finally` block decrements the counter); a job finishing with a retry
(re-inserted at the FRONT of pending, removed from running, counter
decremented); and a fresh submission through `addJob` (pushed then re-sorted
by the current comparator `key`, which may differ per call as the job map
grows). -/
inductive PoolStep (cfg : JType → TypeConfig) : PoolState → PoolState → Prop
  | sched (t : JType) (s : PoolState) : PoolStep cfg s (applySched cfg t s)
  | finishDone (t : JType) (i : Nat) (s : PoolState) :
      i ∈ s.running t → 0 < s.active t →
      PoolStep cfg s
        { pending := s.pending,
          running := fun u => if u = t then (s.running t).erase i else s.running u,
          active := fun u => if u = t then s.active t - 1 else s.active u }
  | finishRetry (t : JType) (i : Nat) (s : PoolState) :
      i ∈ s.running t → 0 < s.active t →
      PoolStep cfg s
        { pending := fun u => if u = t then i :: s.pending t else s.pending u,
          running := fun u => if u = t then (s.running t).erase i else s.running u,
          active := fun u => if u = t then s.active t - 1 else s.active u }
  | addJob (t : JType) (i : Nat) (key : Nat → Int) (s : PoolState) :
      i ∉ s.pending t → i ∉ s.running t →
      PoolStep cfg s
        { pending := fun u => if u = t then jsSort key (s.pending t ++ [i]) else s.pending u,
          running := s.running,
          active := s.active }

/-- Reachability from the initial pool state. -/
def PoolReachable (cfg : JType → TypeConfig) (s : PoolState) : Prop :=
  Relation.ReflTransGen (PoolStep cfg) initPool s

/-- The inductive invariant for C2. -/
def PoolInv (cfg : JType → TypeConfig) (s : PoolState) : Prop :=
  ∀ t, s.active t ≤ (cfg t).concurrency ∧
    (s.pending t ++ s.running t).Nodup ∧
    s.active t = (s.running t).length

theorem processQueue_stop (limit : Nat) (p run : List Nat) (act : Nat)
    (h : ¬ act < limit) : processQueue limit p run act = (p, run, act) := by
  cases p with
  | nil => rfl
  | cons i rest => simp [processQueue, h]

theorem processQueue_inv (limit : Nat) (p : List Nat) :
    ∀ (run : List Nat) (act : Nat), (p ++ run).Nodup → act = run.length →
    act ≤ limit →
    (processQueue limit p run act).2.2 ≤ limit ∧
    ((processQueue limit p run act).1 ++ (processQueue limit p run act).2.1).Nodup ∧
    (processQueue limit p run act).2.2 = (processQueue limit p run act).2.1.length := by
  induction p with
  | nil =>
    intro run act hnd hact hle
    exact ⟨hle, hnd, hact⟩
  | cons i rest ih =>
    intro run act hnd hact hle
    rcases List.nodup_cons.mp hnd with ⟨hni, hnd0⟩
    by_cases hcap : act < limit
    · have hnotrun : i ∉ run := fun hmem => hni (List.mem_append.mpr (Or.inr hmem))
      have hrun' : (if i ∈ run then run else run ++ [i]) = run ++ [i] := if_neg hnotrun
      have hnd' : (rest ++ (run ++ [i])).Nodup := by
        have step1 : List.Perm (run ++ [i]) (i :: run) := List.perm_append_singleton i run
        have step2 : List.Perm (rest ++ (run ++ [i])) (rest ++ i :: run) :=
          List.Perm.append_left rest step1
        have step3 : List.Perm (rest ++ i :: run) (i :: (rest ++ run)) := List.perm_middle
        exact (step2.trans step3).nodup_iff.mpr (List.nodup_cons.mpr ⟨hni, hnd0⟩)
      simp only [processQueue, if_pos hcap, hrun']
      exact ih (run ++ [i]) (act + 1) hnd' (by simp [hact]) (by omega)
    · simp only [processQueue, if_neg hcap]
      exact ⟨hle, hnd, hact⟩

theorem poolInv_init (cfg : JType → TypeConfig) : PoolInv cfg initPool := by
  intro t
  exact ⟨Nat.zero_le _, by simp [initPool], rfl⟩

theorem poolInv_step {cfg : JType → TypeConfig} {s s' : PoolState}
    (hstep : PoolStep cfg s s') (hinv : PoolInv cfg s) : PoolInv cfg s' := by
  cases hstep with
  | sched t s =>
    intro u
    obtain ⟨hle, hnd, hlen⟩ := hinv u
    by_cases hu : u = t
    · subst hu
      simp only [applySched, eq_self_iff_true, if_true]
      exact processQueue_inv (cfg u).concurrency (s.pending u) (s.running u)
        (s.active u) hnd hlen hle
    · simp only [applySched, if_neg hu]
      exact ⟨hle, hnd, hlen⟩
  | finishDone t i s hmem hpos =>
    intro u
    obtain ⟨hle, hnd, hlen⟩ := hinv u
    by_cases hu : u = t
    · subst hu
      simp only [eq_self_iff_true, if_true]
      refine ⟨by omega, ?_, ?_⟩
      · exact List.Nodup.sublist
          ((List.erase_sublist i (s.running u)).append_left (s.pending u)) hnd
      · rw [List.length_erase_of_mem hmem]
        omega
    · simp only [if_neg hu]
      exact ⟨hle, hnd, hlen⟩
  | finishRetry t i s hmem hpos =>
    intro u
    obtain ⟨hle, hnd, hlen⟩ := hinv u
    by_cases hu : u = t
    · subst hu
      simp only [eq_self_iff_true, if_true]
      obtain ⟨hnd1, hnd2, hdisj⟩ := List.nodup_append.mp hnd
      refine ⟨by omega, ?_, ?_⟩
      · rw [List.cons_append, List.nodup_cons]
        refine ⟨?_, List.Nodup.sublist
          ((List.erase_sublist i (s.running u)).append_left (s.pending u)) hnd⟩
        intro hin
        rcases List.mem_append.mp hin with hp | he
        · exact hdisj hp hmem
        · exact hnd2.not_mem_erase he
      · rw [List.length_erase_of_mem hmem]
        omega
    · simp only [if_neg hu]
      exact ⟨hle, hnd, hlen⟩
  | addJob t i key s hnp hnr =>
    intro u
    obtain ⟨hle, hnd, hlen⟩ := hinv u
    by_cases hu : u = t
    · subst hu
      simp only [eq_self_iff_true, if_true]
      refine ⟨hle, ?_, hlen⟩
      have hperm1 : List.Perm (jsSort key (s.pending u ++ [i]) ++ s.running u)
          ((s.pending u ++ [i]) ++ s.running u) :=
        (jsSort_perm key (s.pending u ++ [i])).append_right (s.running u)
      have hperm2 : List.Perm ((s.pending u ++ [i]) ++ s.running u)
          (i :: (s.pending u ++ s.running u)) :=
        ((List.perm_append_singleton i (s.pending u)).append_right (s.running u)).trans
          (List.Perm.refl _)
      refine (hperm1.trans hperm2).nodup_iff.mpr ?_
      rw [List.nodup_cons]
      refine ⟨?_, hnd⟩
      intro hin
      rcases List.mem_append.mp hin with hp | hr
      · exact hnp hp
      · exact hnr hr
    · simp only [if_neg hu]
      exact ⟨hle, hnd, hlen⟩

/-- C2: in every reachable pool state, for every work type the number of
concurrently executing handlers is at most the configured concurrency limit;
the pending list and running set never hold a duplicated job id (no job is
double-dispatched); and a `processQueue` pass started with
`activeWorkers == concurrency` dispatches nothing at all. -/
theorem workerPool_concurrency_c2 (cfg : JType → TypeConfig) (s : PoolState)
    (h : PoolReachable cfg s) :
    (∀ t, s.active t ≤ (cfg t).concurrency) ∧
    (∀ t, (s.pending t ++ s.running t).Nodup) ∧
    (∀ (p run : List Nat) (t : JType),
      processQueue (cfg t).concurrency p run (cfg t).concurrency =
        (p, run, (cfg t).concurrency)) := by
  have hinv : PoolInv cfg s := by
    induction h with
    | refl => exact poolInv_init cfg
    | tail hsteps hstep ih => exact poolInv_step hstep ih
  refine ⟨fun t => (hinv t).1, fun t => (hinv t).2.1, ?_⟩
  intro p run t
  exact processQueue_stop _ p run _ (by omega)

/-- C2 witness: the initial pool state under the default configuration. -/
theorem workerPool_concurrency_c2_witness :
    PoolReachable defaultConfig initPool ∧
    ((∀ t, initPool.active t ≤ (defaultConfig t).concurrency) ∧
     (∀ t, (initPool.pending t ++ initPool.running t).Nodup) ∧
     (∀ (p run : List Nat) (t : JType),
       processQueue (defaultConfig t).concurrency p run (defaultConfig t).concurrency =
         (p, run, (defaultConfig t).concurrency))) :=
  ⟨Relation.ReflTransGen.refl,
   workerPool_concurrency_c2 defaultConfig initPool Relation.ReflTransGen.refl⟩

/-! ### The retry loop of `WorkerPool.processJob` (C3) -/

/-- One run of a job through `WorkerPool.processJob` including re-dispatch of
retries, with the handler abstracted as a function of the current retry count
(a thrown error and a timeout both surface as the error case of the
`Promise.race`): on success `queue.complete` stores the result; on failure
with `retries < maxRetries` the job's `retries` is bumped, its status reset to
pending, the id re-queued (front of pending) and the handler re-attempted;
otherwise `queue.fail` records the error.  The second component counts
handler invocations. -/
def processJobRun (handler : Nat → Except String Int) (j : Job) : Job × Nat :=
  match handler j.retries with
  | Except.ok r => ({ j with status := Status.complete, result := some r }, 1)
  | Except.error e =>
    if h : j.retries < j.maxRetries then
      let next := processJobRun handler
        { j with status := Status.pending, retries := j.retries + 1 }
      (next.1, next.2 + 1)
    else
      ({ j with status := Status.failed, error := some e }, 1)
termination_by j.maxRetries - j.retries
decreasing_by simp; omega

theorem processJobRun_step_ok (handler : Nat → Except String Int) (j : Job) (r : Int)
    (hr : handler j.retries = Except.ok r) :
    processJobRun handler j = ({ j with status := Status.complete, result := some r }, 1) := by
  rw [processJobRun, hr]

theorem processJobRun_step_retry (handler : Nat → Except String Int) (j : Job) (e : String)
    (he : handler j.retries = Except.error e) (hlt : j.retries < j.maxRetries) :
    processJobRun handler j =
      ((processJobRun handler { j with status := Status.pending, retries := j.retries + 1 }).1,
       (processJobRun handler { j with status := Status.pending, retries := j.retries + 1 }).2 + 1) := by
  rw [processJobRun, he]
  simp [hlt]

theorem processJobRun_step_final (handler : Nat → Except String Int) (j : Job) (e : String)
    (he : handler j.retries = Except.error e) (hge : ¬ j.retries < j.maxRetries) :
    processJobRun handler j = ({ j with status := Status.failed, error := some e }, 1) := by
  rw [processJobRun, he]
  simp [hge]

theorem processJobRun_allfail (handler : Nat → Except String Int)
    (hfail : ∀ n, ∃ e, handler n = Except.error e) :
    ∀ (fuel : Nat) (j : Job), j.maxRetries - j.retries = fuel →
    (processJobRun handler j).1.status = Status.failed ∧
    (processJobRun handler j).2 = j.maxRetries - j.retries + 1 := by
  intro fuel
  induction fuel with
  | zero =>
    intro j hf
    obtain ⟨e, he⟩ := hfail j.retries
    rw [processJobRun_step_final handler j e he (by omega)]
    simp [hf]
  | succ n ih =>
    intro j hf
    obtain ⟨e, he⟩ := hfail j.retries
    have hlt : j.retries < j.maxRetries := by omega
    rw [processJobRun_step_retry handler j e he hlt]
    have hrec := ih { j with status := Status.pending, retries := j.retries + 1 } (by simp; omega)
    simp only at hrec
    refine ⟨hrec.1, ?_⟩
    rw [hrec.2]
    simp
    omega

/-- C3: a job whose handler fails on every attempt ends Failed after exactly
`maxRetries + 1` handler attempts; a job whose handler fails twice and then
succeeds, under `maxRetries = 2`, ends Complete with the success value as its
result and `retries == 2` (after 3 attempts). -/
theorem processJob_retries_c3 (handler : Nat → Except String Int) (j : Job)
    (hstart : j.retries = 0) :
    ((∀ n, ∃ e, handler n = Except.error e) →
      (processJobRun handler j).1.status = Status.failed ∧
      (processJobRun handler j).2 = j.maxRetries + 1) ∧
    (∀ (e0 e1 : String) (r : Int), j.maxRetries = 2 →
      handler 0 = Except.error e0 → handler 1 = Except.error e1 →
      handler 2 = Except.ok r →
      (processJobRun handler j).1.status = Status.complete ∧
      (processJobRun handler j).1.result = some r ∧
      (processJobRun handler j).1.retries = 2 ∧
      (processJobRun handler j).2 = 3) := by
  constructor
  · intro hfail
    have h := processJobRun_allfail handler hfail (j.maxRetries - j.retries) j rfl
    rw [hstart] at h
    simpa using h
  · intro e0 e1 r hmax h0 h1 h2
    have hstep0 := processJobRun_step_retry handler j e0 (by rw [hstart]; exact h0)
      (by omega)
    set j1 : Job := { j with status := Status.pending, retries := j.retries + 1 } with hj1
    have hstep1 := processJobRun_step_retry handler j1 e1
      (by show handler j1.retries = _; rw [hj1]; simp [hstart]; exact h1)
      (by rw [hj1]; simp; omega)
    set j2 : Job := { j1 with status := Status.pending, retries := j1.retries + 1 } with hj2
    have hstep2 := processJobRun_step_ok handler j2 r
      (by show handler j2.retries = _; rw [hj2, hj1]; simp [hstart]; exact h2)
    rw [hstep0, hstep1, hstep2]
    refine ⟨rfl, rfl, ?_, rfl⟩
    show j2.retries = 2
    rw [hj2, hj1]
    simp [hstart]

/-- A fresh scan job with `maxRetries = 2` (the scan default). -/
def jobC3 : Job :=
  { id := 0, jtype := JType.scan, status := Status.pending, priority := 5,
    payload := { projectId := 1 }, maxRetries := 2 }

/-- A handler that always fails. -/
def handlerAllFail : Nat → Except String Int := fun _ => Except.error "boom"

/-- A handler that fails on attempts 0 and 1 and succeeds on attempt 2. -/
def handlerThirdOk : Nat → Except String Int :=
  fun n => if n < 2 then Except.error "transient" else Except.ok 7

/-- C3 witness: both scenario hypotheses discharged at concrete inputs. -/
theorem processJob_retries_c3_witness :
    jobC3.retries = 0 ∧
    ((processJobRun handlerAllFail jobC3).1.status = Status.failed ∧
     (processJobRun handlerAllFail jobC3).2 = jobC3.maxRetries + 1) ∧
    ((processJobRun handlerThirdOk jobC3).1.status = Status.complete ∧
     (processJobRun handlerThirdOk jobC3).1.result = some 7 ∧
     (processJobRun handlerThirdOk jobC3).1.retries = 2 ∧
     (processJobRun handlerThirdOk jobC3).2 = 3) :=
  ⟨rfl,
   (processJob_retries_c3 handlerAllFail jobC3 rfl).1
     (fun _ => ⟨"boom", rfl⟩),
   (processJob_retries_c3 handlerThirdOk jobC3 rfl).2 "transient" "transient" 7
     rfl rfl rfl rfl⟩

/-! ### Coordinator event handling (C4, C5) and waitForType (C9) -/

/-- The scan result object as read by the Coordinator (`job.result.extracted`;
the field may be absent). -/
structure ScanResult where
  extracted : Option String
deriving DecidableEq

/-- What the `job:complete` subscriber reads off the completed job it is
handed: the job's type, the payload fields it copies, and the result (`none`
models a null/undefined result, the only falsy value a handler promise can
produce here). -/
structure CompletedJobView where
  jtype : JType
  projectId : Nat
  site : String
  page : String
  result : Option ScanResult
deriving DecidableEq

/-- An Analyze job submission as performed by the Coordinator. -/
structure AnalyzeSubmission where
  projectId : Nat
  site : String
  page : String
  extracted : Option String
  priority : Int
deriving DecidableEq

/-- The `job:complete` handler of `Coordinator.setupEventHandlers`: if the
completed job is a Scan job AND its result is truthy, submit exactly one
Analyze job at priority 3 carrying the payload's projectId/site/page and the
result's extracted content.  Returns the submissions made. -/
def onJobComplete (j : CompletedJobView) : List AnalyzeSubmission :=
  match j.result with
  | some r =>
    if j.jtype = JType.scan then
      [{ projectId := j.projectId, site := j.site, page := j.page,
         extracted := r.extracted, priority := 3 }]
    else []
  | none => []

/-- The single Analyze submission the Coordinator makes for a completed scan. -/
def analyzeFor (j : CompletedJobView) (r : ScanResult) : AnalyzeSubmission :=
  { projectId := j.projectId, site := j.site, page := j.page,
    extracted := r.extracted, priority := 3 }

/-- C4 (amended): every Scan job completing with a non-null result triggers
exactly one Analyze submission at priority 3 carrying that result's extracted
content and the same projectId/site/page, independently of other jobs; n such
completions yield exactly n Analyze submissions. -/
theorem scanComplete_analyze_c4 (j : CompletedJobView) (r : ScanResult)
    (hj : j.jtype = JType.scan) (hr : j.result = some r) :
    onJobComplete j = [analyzeFor j r] ∧
    ∀ (js : List CompletedJobView),
      (∀ x ∈ js, x.jtype = JType.scan ∧ x.result ≠ none) →
      ((js.map onJobComplete).flatten).length = js.length := by
  constructor
  · simp [onJobComplete, hr, hj, analyzeFor]
  · intro js hjs
    induction js with
    | nil => rfl
    | cons x xs ih =>
      obtain ⟨hx, hxr⟩ := hjs x (by simp)
      obtain ⟨rx, hrx⟩ := Option.ne_none_iff_exists'.mp hxr
      have hone : onJobComplete x = [analyzeFor x rx] := by
        simp [onJobComplete, hrx, hx, analyzeFor]
      simp only [List.map_cons, List.flatten, hone]
      have hxs := ih (fun y hy => hjs y (by simp [hy]))
      simp only [List.flatten] at hxs
      simp [hxs]

/-- A completed Scan job carrying a null result (reachable: `complete` stores
whatever the handler resolved, and handlers are opaque caller-supplied
functions). -/
def nullResultScan : CompletedJobView :=
  { jtype := JType.scan, projectId := 1, site := "a", page := "p", result := none }

/-- C4 counterexample: a Scan job that completed with a null result triggers
NO Analyze submission (`job.result` is falsy, so the guard skips it): one
completed Scan job yields zero, not exactly one, Analyze jobs. -/
theorem scanComplete_analyze_c4_cex :
    ¬ ((onJobComplete nullResultScan).length = 1) := by
  decide

/-- A completed Scan job with extracted content. -/
def okResultScan : CompletedJobView :=
  { jtype := JType.scan, projectId := 1, site := "a", page := "p",
    result := some { extracted := some "text" } }

/-- C4 witness: a completed scan with extracted content yields its single
Analyze submission. -/
theorem scanComplete_analyze_c4_witness :
    okResultScan.jtype = JType.scan ∧ okResultScan.result = some { extracted := some "text" } ∧
    (onJobComplete okResultScan = [analyzeFor okResultScan { extracted := some "text" }] ∧
    ∀ (js : List CompletedJobView),
      (∀ x ∈ js, x.jtype = JType.scan ∧ x.result ≠ none) →
      ((js.map onJobComplete).flatten).length = js.length) :=
  ⟨rfl, rfl, scanComplete_analyze_c4 okResultScan { extracted := some "text" } rfl rfl⟩

/-- Project statuses (`PROJECT_STATUS` in the coordinator). -/
inductive PStatus where
  | created
  | discovering
  | scanning
  | analyzing
  | synthesizing
  | complete
  | failed
deriving DecidableEq

/-- A Discover job as read by `checkPhaseCompletion`: its status, its
payload's site, and `result?.pages` (`none` models both a null result — e.g.
a failed job — and a result without a pages array). -/
structure DiscoverJobView where
  status : Status
  site : String
  resultPages : Option (List String)
deriving DecidableEq

/-- The aggregation loop of `checkPhaseCompletion`'s Discovering branch: all
returned page lists flattened, each page paired with its job's payload site
(the `{...p, site: job.payload.site}` spread). -/
def aggregatePages (jobs : List DiscoverJobView) : List (String × String) :=
  jobs.foldl
    (fun acc j =>
      match j.resultPages with
      | some ps => acc ++ ps.map (fun p => (p, j.site))
      | none => acc)
    []

/-- The Discovering branch of `Coordinator.checkPhaseCompletion`: when the
project is Discovering and all its Discover jobs (at least one) are terminal,
aggregate the pages; a non-empty aggregate goes to `startScanning` (which
sets status Scanning), an empty one fails the project with the reason
"No pages discovered".  Returns (status, error, pages handed to
startScanning). -/
def checkDiscoveryPhase (st : PStatus) (jobs : List DiscoverJobView) :
    PStatus × Option String × Option (List (String × String)) :=
  if st = PStatus.discovering then
    let allDiscovered := decide (jobs.length > 0) &&
      jobs.all (fun j => decide (j.status = Status.complete) || decide (j.status = Status.failed))
    if allDiscovered then
      let pages := aggregatePages jobs
      if pages.length > 0 then
        (PStatus.scanning, none, some pages)
      else
        (PStatus.failed, some "No pages discovered", none)
    else (st, none, none)
  else (st, none, none)

/-- C5: when every Discover job (at least one) of a Discovering project is
terminal, the Coordinator aggregates the returned page lists; an empty
aggregate fails the project with reason "No pages discovered", a non-empty
aggregate is handed to startScanning and the status becomes Scanning. -/
theorem discovery_completion_c5 (jobs : List DiscoverJobView)
    (hne : jobs ≠ [])
    (hterm : ∀ j ∈ jobs, j.status = Status.complete ∨ j.status = Status.failed) :
    (aggregatePages jobs = [] →
      checkDiscoveryPhase PStatus.discovering jobs =
        (PStatus.failed, some "No pages discovered", none)) ∧
    (aggregatePages jobs ≠ [] →
      checkDiscoveryPhase PStatus.discovering jobs =
        (PStatus.scanning, none, some (aggregatePages jobs))) := by
  have hall : (decide (jobs.length > 0) &&
      jobs.all (fun j => decide (j.status = Status.complete) ||
        decide (j.status = Status.failed))) = true := by
    rw [Bool.and_eq_true]
    constructor
    · simp [List.length_pos_iff_ne_nil, hne]
    · rw [List.all_eq_true]
      intro j hj
      rcases hterm j hj with h | h <;> simp [h]
  constructor
  · intro hagg
    simp only [checkDiscoveryPhase, if_pos rfl, hall, if_true]
    rw [if_neg]
    simp [hagg]
  · intro hagg
    simp only [checkDiscoveryPhase, if_pos rfl, hall, if_true]
    rw [if_pos]
    simp [List.length_pos_iff_ne_nil, hagg]

/-- A terminal Discover job that returned an empty page list. -/
def emptyDiscoverJob : DiscoverJobView :=
  { status := Status.complete, site := "s", resultPages := some [] }

/-- C5 witness: a single terminal Discover job returning an empty page list
fails the project with the "No pages discovered" reason. -/
theorem discovery_completion_c5_witness :
    ([emptyDiscoverJob] ≠ []) ∧
    (∀ j ∈ [emptyDiscoverJob], j.status = Status.complete ∨ j.status = Status.failed) ∧
    ((aggregatePages [emptyDiscoverJob] = [] →
      checkDiscoveryPhase PStatus.discovering [emptyDiscoverJob] =
        (PStatus.failed, some "No pages discovered", none)) ∧
    (aggregatePages [emptyDiscoverJob] ≠ [] →
      checkDiscoveryPhase PStatus.discovering [emptyDiscoverJob] =
        (PStatus.scanning, none, some (aggregatePages [emptyDiscoverJob])))) :=
  ⟨by decide, by decide, discovery_completion_c5 _ (by decide) (by decide)⟩

/-- The resolution condition checked (every 100ms) by
`WorkerPool.waitForType`'s `check` closure: the project's jobs of the given
type (from `getProjectJobs`, filtered by type; the `createdAt` ordering is
irrelevant to this boolean) must be a NON-EMPTY list all of whose members are
terminal — `jobs.length > 0 && jobs.every(complete || failed)`. -/
def waitForTypeDone (jobs : List Job) (pid : Nat) (t : JType) : Bool :=
  let js := jobs.filter
    (fun j => decide (j.payload.projectId = pid) && decide (j.jtype = t))
  decide (js.length > 0) &&
    js.all (fun j => decide (j.status = Status.complete) || decide (j.status = Status.failed))

/-- C9 (amended): `waitForType` resolves exactly when the project has AT
LEAST ONE job of the work type and every such job is terminal; with zero such
jobs the condition is false and the promise never resolves, so the vacuous
case does not hold. -/
theorem waitForType_c9 (jobs : List Job) (pid : Nat) (t : JType) :
    waitForTypeDone jobs pid t = true ↔
      (jobs.filter (fun j => decide (j.payload.projectId = pid) && decide (j.jtype = t)) ≠ [] ∧
       ∀ j ∈ jobs.filter (fun j => decide (j.payload.projectId = pid) && decide (j.jtype = t)),
         j.status = Status.complete ∨ j.status = Status.failed) := by
  simp only [waitForTypeDone, Bool.and_eq_true, List.all_eq_true, decide_eq_true_eq,
    Bool.or_eq_true, gt_iff_lt, List.length_pos_iff_ne_nil]

/-- C9 counterexample: a project state with zero jobs of the type — every such
job is (vacuously) terminal, yet the completion condition is false, so
`waitForType` does not resolve. -/
theorem waitForType_c9_cex :
    (∀ j ∈ ([] : List Job).filter
        (fun j => decide (j.payload.projectId = 1) && decide (j.jtype = JType.scan)),
      j.status = Status.complete ∨ j.status = Status.failed) ∧
    waitForTypeDone [] 1 JType.scan = false := by
  constructor
  · intro j hj
    simp at hj
  · decide

/-! ### JobQueue reachability and the stats partition (C6) -/

theorem mem_of_lookupJob {m : JMap} {i : Nat} {jb : Job}
    (h : lookupJob m i = some jb) : (i, jb) ∈ m := by
  simp only [lookupJob, Option.map_eq_some'] at h
  obtain ⟨p, hp, hsnd⟩ := h
  have hmem := List.mem_of_find?_eq_some hp
  have hfst : p.1 = i := by simpa using List.find?_some hp
  have : p = (i, jb) := by
    cases p
    simp_all
  exact this ▸ hmem

theorem lookupJob_of_mem_keys {m : JMap} {i : Nat}
    (h : i ∈ m.map Prod.fst) : ∃ jb, lookupJob m i = some jb := by
  induction m with
  | nil => simp at h
  | cons p m ih =>
    by_cases hp : p.1 = i
    · exact ⟨p.2, by simp [lookupJob, List.find?, hp]⟩
    · have h' : i ∈ m.map Prod.fst := by
        rcases List.mem_map.mp h with ⟨p', hp', hfst⟩
        rcases List.mem_cons.mp hp' with rfl | hmem
        · exact absurd hfst hp
        · exact List.mem_map.mpr ⟨p', hmem, hfst⟩
      obtain ⟨jb, hjb⟩ := ih h'
      refine ⟨jb, ?_⟩
      simpa [lookupJob, List.find?, hp] using hjb

theorem lookupJob_of_mem_nodup {m : JMap} {i : Nat} {jb : Job}
    (hnd : (m.map Prod.fst).Nodup) (h : (i, jb) ∈ m) :
    lookupJob m i = some jb := by
  induction m with
  | nil => simp at h
  | cons p m ih =>
    rcases List.mem_cons.mp h with rfl | hmem
    · simp [lookupJob, List.find?]
    · have hne : p.1 ≠ i := by
        intro he
        have : i ∈ m.map Prod.fst := List.mem_map.mpr ⟨(i, jb), hmem, rfl⟩
        rw [← he] at this
        exact (List.nodup_cons.mp (by simpa using hnd)).1 this
      have hnd' : (m.map Prod.fst).Nodup := (List.nodup_cons.mp (by simpa using hnd)).2
      simpa [lookupJob, List.find?, hne] using ih hnd' hmem

theorem setJob_of_lookup_some {m : JMap} {i : Nat} {jb : Job} (j : Job)
    (h : lookupJob m i = some jb) :
    setJob m i j = m.map (fun p => if p.1 = i then (i, j) else p) := by
  simp only [setJob]
  rw [if_pos]
  have hmem := mem_of_lookupJob h
  simp only [List.any_eq_true]
  exact ⟨(i, jb), hmem, by simp⟩

theorem setJob_keys_of_lookup_some {m : JMap} {i : Nat} {jb : Job} (j : Job)
    (h : lookupJob m i = some jb) :
    (setJob m i j).map Prod.fst = m.map Prod.fst := by
  rw [setJob_of_lookup_some j h, List.map_map]
  apply List.map_congr_left
  intro p _
  by_cases hp : p.1 = i <;> simp [hp]

theorem lookupJob_setJob_self {m : JMap} {i : Nat} {jb : Job} (j : Job)
    (h : lookupJob m i = some jb) :
    lookupJob (setJob m i j) i = some j := by
  rw [setJob_of_lookup_some j h]
  have hmem := mem_of_lookupJob h
  clear h
  induction m with
  | nil => simp at hmem
  | cons p m ih =>
    by_cases hp : p.1 = i
    · simp [lookupJob, List.find?, hp]
    · rcases List.mem_cons.mp hmem with rfl | hmem'
      · simp at hp
      · simpa [lookupJob, List.find?, hp] using ih hmem'

theorem mem_setJob_of_lookup_some {m : JMap} {i : Nat} {jb : Job} {j : Job}
    (h : lookupJob m i = some jb) :
    ∀ p ∈ setJob m i j, p = (i, j) ∨ (p ∈ m ∧ p.1 ≠ i) := by
  rw [setJob_of_lookup_some j h]
  intro p hp
  rcases List.mem_map.mp hp with ⟨p', hp', hrepl⟩
  by_cases hcase : p'.1 = i
  · left
    rw [← hrepl, if_pos hcase]
  · right
    rw [← hrepl, if_neg hcase]
    exact ⟨hp', hcase⟩

/-- The JobQueue mutations as the pool performs them: `add` with a freshly
generated id and a pending job; `getNext`; `complete`/`fail`/retry-requeue on
a job the pool dispatched (its id is in the running set); `cleanup` with an
arbitrary age-cutoff selection. -/
inductive QStep : JobQueue → JobQueue → Prop
  | add (q : JobQueue) (j : Job) :
      lookupJob q.jobs j.id = none → j.status = Status.pending →
      QStep q (q.add j)
  | getNext (q : JobQueue) : QStep q (q.getNext).2
  | complete (q : JobQueue) (i : Nat) (r : Int) :
      i ∈ q.running → QStep q (q.complete i r)
  | fail (q : JobQueue) (i : Nat) (e : String) :
      i ∈ q.running → QStep q (q.fail i e)
  | retry (q : JobQueue) (i : Nat) :
      i ∈ q.running → QStep q (q.retryRequeue i)
  | cleanup (q : JobQueue) (sel : Nat → Bool) :
      QStep q (q.cleanupSel sel)

/-- Reachability of a queue state from `new JobQueue()`. -/
def QReachable (q : JobQueue) : Prop :=
  Relation.ReflTransGen QStep JobQueue.empty q

/-- The inductive invariant tying the three containers together. -/
structure QInv (q : JobQueue) : Prop where
  keysNodup : (q.jobs.map Prod.fst).Nodup
  pendNodup : q.pending.Nodup
  runNodup : q.running.Nodup
  disj : ∀ i ∈ q.pending, i ∉ q.running
  statusPend : ∀ p ∈ q.jobs, p.2.status = Status.pending ↔ p.1 ∈ q.pending
  statusRun : ∀ p ∈ q.jobs, p.2.status = Status.running ↔ p.1 ∈ q.running
  pendKeys : ∀ i ∈ q.pending, i ∈ q.jobs.map Prod.fst
  runKeys : ∀ i ∈ q.running, i ∈ q.jobs.map Prod.fst

theorem qInv_empty : QInv JobQueue.empty := by
  refine ⟨by simp [JobQueue.empty], by simp [JobQueue.empty], by simp [JobQueue.empty],
    ?_, ?_, ?_, ?_, ?_⟩ <;> intro x hx <;> simp [JobQueue.empty] at hx

theorem qInv_add {q : JobQueue} {j : Job} (hinv : QInv q)
    (hfresh : lookupJob q.jobs j.id = none) (hst : j.status = Status.pending) :
    QInv (q.add j) := by
  have hkfresh : j.id ∉ q.jobs.map Prod.fst := by
    intro hmem
    obtain ⟨jb, hjb⟩ := lookupJob_of_mem_keys hmem
    rw [hfresh] at hjb
    exact Option.noConfusion hjb
  have hnp : j.id ∉ q.pending := fun hmem => hkfresh (hinv.pendKeys j.id hmem)
  have hnr : j.id ∉ q.running := fun hmem => hkfresh (hinv.runKeys j.id hmem)
  have hset : setJob q.jobs j.id j = q.jobs ++ [(j.id, j)] :=
    setJob_of_lookup_none q.jobs j.id j hfresh
  have hpmem : ∀ i, i ∈ (q.add j).pending ↔ (i ∈ q.pending ∨ i = j.id) := by
    intro i
    show i ∈ jsSort _ (q.pending ++ [j.id]) ↔ _
    rw [(jsSort_perm _ _).mem_iff, List.mem_append]
    simp
  refine ⟨?_, ?_, ?_, ?_, ?_, ?_, ?_, ?_⟩
  · show ((setJob q.jobs j.id j).map Prod.fst).Nodup
    rw [hset, List.map_append]
    refine (List.perm_append_singleton j.id (q.jobs.map Prod.fst)).nodup_iff.mpr ?_
    exact List.nodup_cons.mpr ⟨hkfresh, hinv.keysNodup⟩
  · show (jsSort _ (q.pending ++ [j.id])).Nodup
    refine (jsSort_perm _ _).nodup_iff.mpr ?_
    refine (List.perm_append_singleton j.id q.pending).nodup_iff.mpr ?_
    exact List.nodup_cons.mpr ⟨hnp, hinv.pendNodup⟩
  · exact hinv.runNodup
  · intro i hi
    rcases (hpmem i).mp hi with hold | rfl
    · exact hinv.disj i hold
    · exact hnr
  · intro p hp
    rw [show (q.add j).jobs = q.jobs ++ [(j.id, j)] from hset] at hp
    rcases List.mem_append.mp hp with hold | hnew
    · have hiff := hinv.statusPend p hold
      have hpne : p.1 ≠ j.id := by
        intro he
        exact hkfresh (he ▸ List.mem_map.mpr ⟨p, hold, rfl⟩)
      rw [hpmem p.1]
      constructor
      · intro hs
        exact Or.inl (hiff.mp hs)
      · intro hc
        rcases hc with hc | hc
        · exact hiff.mpr hc
        · exact absurd hc hpne
    · have : p = (j.id, j) := by simpa using hnew
      subst this
      simp only [hst, hpmem]
      simp
  · intro p hp
    rw [show (q.add j).jobs = q.jobs ++ [(j.id, j)] from hset] at hp
    rcases List.mem_append.mp hp with hold | hnew
    · exact hinv.statusRun p hold
    · have : p = (j.id, j) := by simpa using hnew
      subst this
      show j.status = Status.running ↔ j.id ∈ q.running
      rw [hst]
      simp [hnr]
  · intro i hi
    rw [show (q.add j).jobs = q.jobs ++ [(j.id, j)] from hset, List.map_append]
    rcases (hpmem i).mp hi with hold | rfl
    · exact List.mem_append.mpr (Or.inl (hinv.pendKeys i hold))
    · simp
  · intro i hi
    rw [show (q.add j).jobs = q.jobs ++ [(j.id, j)] from hset, List.map_append]
    exact List.mem_append.mpr (Or.inl (hinv.runKeys i hi))

theorem qInv_getNext {q : JobQueue} (hinv : QInv q) : QInv (q.getNext).2 := by
  rcases hp : q.pending with _ | ⟨i, rest⟩
  · simpa only [JobQueue.getNext, hp] using hinv
  · have hip : i ∈ q.pending := by rw [hp]; simp
    obtain ⟨jb, hjb⟩ := lookupJob_of_mem_keys (hinv.pendKeys i hip)
    have hnr : i ∉ q.running := hinv.disj i hip
    have hrest : rest.Nodup ∧ i ∉ rest := by
      have := hinv.pendNodup
      rw [hp, List.nodup_cons] at this
      exact ⟨this.2, this.1⟩
    simp only [JobQueue.getNext, hp, hjb, if_neg hnr]
    set jb' : Job := { jb with status := Status.running } with hjb'
    have hkeys : (setJob q.jobs i jb').map Prod.fst = q.jobs.map Prod.fst :=
      setJob_keys_of_lookup_some jb' hjb
    refine ⟨?_, ?_, ?_, ?_, ?_, ?_, ?_, ?_⟩
    · show ((setJob q.jobs i jb').map Prod.fst).Nodup
      rw [hkeys]
      exact hinv.keysNodup
    · exact hrest.1
    · show (q.running ++ [i]).Nodup
      refine (List.perm_append_singleton i q.running).nodup_iff.mpr ?_
      exact List.nodup_cons.mpr ⟨hnr, hinv.runNodup⟩
    · intro i' hi'
      have hi'p : i' ∈ q.pending := by rw [hp]; simp [hi']
      have hne : i' ≠ i := fun he => hrest.2 (he ▸ hi')
      intro hmem
      rcases List.mem_append.mp hmem with hr | hsing
      · exact hinv.disj i' hi'p hr
      · exact hne (by simpa using hsing)
    · intro p hpm
      rcases mem_setJob_of_lookup_some hjb p hpm with rfl | ⟨hold, hne⟩
      · show jb'.status = Status.pending ↔ i ∈ rest
        rw [hjb']
        simp [hrest.2]
      · have hiff := hinv.statusPend p hold
        rw [hp] at hiff
        constructor
        · intro hs
          rcases List.mem_cons.mp (hiff.mp hs) with he | hm
          · exact absurd he hne
          · exact hm
        · intro hm
          exact hiff.mpr (List.mem_cons_of_mem i hm)
    · intro p hpm
      rcases mem_setJob_of_lookup_some hjb p hpm with rfl | ⟨hold, hne⟩
      · show jb'.status = Status.running ↔ i ∈ q.running ++ [i]
        rw [hjb']
        simp
      · have hiff := hinv.statusRun p hold
        rw [List.mem_append]
        constructor
        · intro hs
          exact Or.inl (hiff.mp hs)
        · intro hm
          rcases hm with hm | hm
          · exact hiff.mpr hm
          · exact absurd (by simpa using hm) hne
    · intro i' hi'
      rw [hkeys]
      exact hinv.pendKeys i' (by rw [hp]; simp [hi'])
    · intro i' hi'
      rw [hkeys]
      rcases List.mem_append.mp hi' with hr | hsing
      · exact hinv.runKeys i' hr
      · have : i' = i := by simpa using hsing
        exact this ▸ hinv.pendKeys i hip

theorem qInv_terminal_update {q : JobQueue} (hinv : QInv q) {i : Nat} {jb jb' : Job}
    (hmem : i ∈ q.running) (hjb : lookupJob q.jobs i = some jb)
    (hst1 : jb'.status ≠ Status.pending) (hst2 : jb'.status ≠ Status.running) :
    QInv { q with jobs := setJob q.jobs i jb', running := q.running.erase i } := by
  have hnp : i ∉ q.pending := fun hp => hinv.disj i hp hmem
  have hkeys : (setJob q.jobs i jb').map Prod.fst = q.jobs.map Prod.fst :=
    setJob_keys_of_lookup_some jb' hjb
  refine ⟨?_, hinv.pendNodup, ?_, ?_, ?_, ?_, ?_, ?_⟩
  · show ((setJob q.jobs i jb').map Prod.fst).Nodup
    rw [hkeys]
    exact hinv.keysNodup
  · exact List.Nodup.sublist (List.erase_sublist i q.running) hinv.runNodup
  · intro i' hi'
    intro hr
    exact hinv.disj i' hi' (List.mem_of_mem_erase hr)
  · intro p hpm
    rcases mem_setJob_of_lookup_some hjb p hpm with rfl | ⟨hold, hne⟩
    · show jb'.status = Status.pending ↔ i ∈ q.pending
      simp [hst1, hnp]
    · exact hinv.statusPend p hold
  · intro p hpm
    rcases mem_setJob_of_lookup_some hjb p hpm with rfl | ⟨hold, hne⟩
    · show jb'.status = Status.running ↔ i ∈ q.running.erase i
      simp [hst2, hinv.runNodup.not_mem_erase]
    · have hiff := hinv.statusRun p hold
      rw [hiff, List.mem_erase_of_ne hne]
  · intro i' hi'
    rw [hkeys]
    exact hinv.pendKeys i' hi'
  · intro i' hi'
    rw [hkeys]
    exact hinv.runKeys i' (List.mem_of_mem_erase hi')

theorem qInv_complete {q : JobQueue} (hinv : QInv q) {i : Nat} (r : Int)
    (hmem : i ∈ q.running) : QInv (q.complete i r) := by
  obtain ⟨jb, hjb⟩ := lookupJob_of_mem_keys (hinv.runKeys i hmem)
  simp only [JobQueue.complete, hjb]
  exact qInv_terminal_update hinv hmem hjb (by simp) (by simp)

theorem qInv_fail {q : JobQueue} (hinv : QInv q) {i : Nat} (e : String)
    (hmem : i ∈ q.running) : QInv (q.fail i e) := by
  obtain ⟨jb, hjb⟩ := lookupJob_of_mem_keys (hinv.runKeys i hmem)
  simp only [JobQueue.fail, hjb]
  exact qInv_terminal_update hinv hmem hjb (by simp) (by simp)

theorem qInv_retry {q : JobQueue} (hinv : QInv q) {i : Nat}
    (hmem : i ∈ q.running) : QInv (q.retryRequeue i) := by
  obtain ⟨jb, hjb⟩ := lookupJob_of_mem_keys (hinv.runKeys i hmem)
  simp only [JobQueue.retryRequeue, hjb]
  have hnp : i ∉ q.pending := fun hp => hinv.disj i hp hmem
  set jb' : Job := { jb with status := Status.pending, retries := jb.retries + 1 } with hjb'
  have hkeys : (setJob q.jobs i jb').map Prod.fst = q.jobs.map Prod.fst :=
    setJob_keys_of_lookup_some jb' hjb
  refine ⟨?_, ?_, ?_, ?_, ?_, ?_, ?_, ?_⟩
  · show ((setJob q.jobs i jb').map Prod.fst).Nodup
    rw [hkeys]
    exact hinv.keysNodup
  · exact List.nodup_cons.mpr ⟨hnp, hinv.pendNodup⟩
  · exact List.Nodup.sublist (List.erase_sublist i q.running) hinv.runNodup
  · intro i' hi'
    rcases List.mem_cons.mp hi' with rfl | hold
    · exact hinv.runNodup.not_mem_erase
    · intro hr
      exact hinv.disj i' hold (List.mem_of_mem_erase hr)
  · intro p hpm
    rcases mem_setJob_of_lookup_some hjb p hpm with rfl | ⟨hold, hne⟩
    · show jb'.status = Status.pending ↔ i ∈ i :: q.pending
      simp [hjb']
    · have hiff := hinv.statusPend p hold
      rw [hiff, List.mem_cons]
      simp [hne]
  · intro p hpm
    rcases mem_setJob_of_lookup_some hjb p hpm with rfl | ⟨hold, hne⟩
    · show jb'.status = Status.running ↔ i ∈ q.running.erase i
      rw [hjb']
      simp [hinv.runNodup.not_mem_erase]
    · have hiff := hinv.statusRun p hold
      rw [hiff, List.mem_erase_of_ne hne]
  · intro i' hi'
    rw [hkeys]
    rcases List.mem_cons.mp hi' with rfl | hold
    · exact hinv.runKeys i' hmem
    · exact hinv.pendKeys i' hold
  · intro i' hi'
    rw [hkeys]
    exact hinv.runKeys i' (List.mem_of_mem_erase hi')

theorem qInv_cleanup {q : JobQueue} (hinv : QInv q) (sel : Nat → Bool) :
    QInv (q.cleanupSel sel) := by
  have hsub : ((q.cleanupSel sel).jobs.map Prod.fst).Sublist (q.jobs.map Prod.fst) :=
    List.Sublist.map Prod.fst (List.filter_sublist q.jobs)
  have hmemj : ∀ p ∈ (q.cleanupSel sel).jobs, p ∈ q.jobs := by
    intro p hp
    exact List.mem_of_mem_filter hp
  refine ⟨List.Nodup.sublist hsub hinv.keysNodup, hinv.pendNodup, hinv.runNodup,
    hinv.disj, ?_, ?_, ?_, ?_⟩
  · intro p hp
    exact hinv.statusPend p (hmemj p hp)
  · intro p hp
    exact hinv.statusRun p (hmemj p hp)
  · intro i hi
    obtain ⟨jb, hjb⟩ := lookupJob_of_mem_keys (hinv.pendKeys i hi)
    have hentry := mem_of_lookupJob hjb
    have hstatus : jb.status = Status.pending := (hinv.statusPend (i, jb) hentry).mpr hi
    have hkeep : (i, jb) ∈ (q.cleanupSel sel).jobs := by
      apply List.mem_filter.mpr
      refine ⟨hentry, ?_⟩
      simp [hstatus]
    exact List.mem_map.mpr ⟨(i, jb), hkeep, rfl⟩
  · intro i hi
    obtain ⟨jb, hjb⟩ := lookupJob_of_mem_keys (hinv.runKeys i hi)
    have hentry := mem_of_lookupJob hjb
    have hstatus : jb.status = Status.running := (hinv.statusRun (i, jb) hentry).mpr hi
    have hkeep : (i, jb) ∈ (q.cleanupSel sel).jobs := by
      apply List.mem_filter.mpr
      refine ⟨hentry, ?_⟩
      simp [hstatus]
    exact List.mem_map.mpr ⟨(i, jb), hkeep, rfl⟩

theorem qReachable_inv {q : JobQueue} (h : QReachable q) : QInv q := by
  induction h with
  | refl => exact qInv_empty
  | tail hsteps hstep ih =>
    cases hstep with
    | add j hfresh hst => exact qInv_add ih hfresh hst
    | getNext => exact qInv_getNext ih
    | complete i r hmem => exact qInv_complete ih r hmem
    | fail i e hmem => exact qInv_fail ih e hmem
    | retry i hmem => exact qInv_retry ih hmem
    | cleanup sel => exact qInv_cleanup ih sel

theorem filter_status_length {q : JobQueue} (st : Status) (l : List Nat)
    (hknd : (q.jobs.map Prod.fst).Nodup) (hnd : l.Nodup)
    (hiff : ∀ p ∈ q.jobs, p.2.status = st ↔ p.1 ∈ l)
    (hlk : ∀ i ∈ l, i ∈ q.jobs.map Prod.fst) :
    (q.jobs.filter (fun p => p.2.status = st)).length = l.length := by
  set fl := (q.jobs.filter (fun p => decide (p.2.status = st))).map Prod.fst with hfl
  have hflnd : fl.Nodup := by
    refine List.Nodup.sublist ?_ hknd
    exact List.Sublist.map Prod.fst (List.filter_sublist q.jobs)
  have hext : ∀ k, k ∈ fl ↔ k ∈ l := by
    intro k
    constructor
    · intro hk
      rcases List.mem_map.mp hk with ⟨p, hp, rfl⟩
      have hpj := List.mem_of_mem_filter hp
      have hpred := List.of_mem_filter hp
      simp only [decide_eq_true_eq] at hpred
      exact (hiff p hpj).mp hpred
    · intro hk
      obtain ⟨jb, hjb⟩ := lookupJob_of_mem_keys (hlk k hk)
      have hentry := mem_of_lookupJob hjb
      have hstatus : jb.status = st := (hiff (k, jb) hentry).mpr hk
      refine List.mem_map.mpr ⟨(k, jb), ?_, rfl⟩
      apply List.mem_filter.mpr
      exact ⟨hentry, by simp [hstatus]⟩
  have hperm : List.Perm fl l := (List.perm_ext_iff_of_nodup hflnd hnd).mpr hext
  have hlen : fl.length = l.length := hperm.length_eq
  rw [hfl, List.length_map] at hlen
  exact hlen

theorem jmap_length_partition (m : JMap) :
    m.length = (m.filter (fun p => p.2.status = Status.pending)).length +
      (m.filter (fun p => p.2.status = Status.running)).length +
      (m.filter (fun p => p.2.status = Status.complete)).length +
      (m.filter (fun p => p.2.status = Status.failed)).length := by
  induction m with
  | nil => rfl
  | cons p m ih =>
    rcases hstatus : p.2.status <;>
      simp [List.filter_cons, hstatus, ih] <;> omega

/-- C6: in every reachable JobQueue state, `getStats` returns a partition of
the owned job set: `pending + running + complete + failed == total`. -/
theorem stats_partition_c6 (q : JobQueue) (h : QReachable q) :
    (q.getStats).pending + (q.getStats).running + (q.getStats).complete +
      (q.getStats).failed = (q.getStats).total := by
  have hinv := qReachable_inv h
  have hpend := filter_status_length Status.pending q.pending hinv.keysNodup
    hinv.pendNodup hinv.statusPend hinv.pendKeys
  have hrun := filter_status_length Status.running q.running hinv.keysNodup
    hinv.runNodup hinv.statusRun hinv.runKeys
  have hpart := jmap_length_partition q.jobs
  show q.pending.length + q.running.length +
    (q.jobs.filter (fun p => p.2.status = Status.complete)).length +
    (q.jobs.filter (fun p => p.2.status = Status.failed)).length = q.jobs.length
  omega

/-- C6 witness: the queue holding one freshly added job (one `add` step from
the empty queue). -/
theorem stats_partition_c6_witness :
    QReachable (JobQueue.empty.add (mkSimpleJob 0 2)) ∧
    ((JobQueue.empty.add (mkSimpleJob 0 2)).getStats).pending +
      ((JobQueue.empty.add (mkSimpleJob 0 2)).getStats).running +
      ((JobQueue.empty.add (mkSimpleJob 0 2)).getStats).complete +
      ((JobQueue.empty.add (mkSimpleJob 0 2)).getStats).failed =
      ((JobQueue.empty.add (mkSimpleJob 0 2)).getStats).total :=
  ⟨Relation.ReflTransGen.single (QStep.add JobQueue.empty (mkSimpleJob 0 2) rfl rfl),
   stats_partition_c6 _
     (Relation.ReflTransGen.single (QStep.add JobQueue.empty (mkSimpleJob 0 2) rfl rfl))⟩

/-! ### Retry requeue precedence (C7) -/

theorem sublist_insertSorted (key : Nat → Int) (x : Nat) (s : List Nat) :
    s.Sublist (insertSorted key x s) := by
  induction s with
  | nil => simp [insertSorted]
  | cons y ys ih =>
    by_cases h : key x ≤ key y
    · simp only [insertSorted, if_pos h]
      exact List.Sublist.cons x (List.Sublist.refl _)
    · simp only [insertSorted, if_neg h]
      exact List.Sublist.cons₂ y ih

theorem insertSorted_pair (key : Nat → Int) (a b : Nat) (s : List Nat)
    (hab : key a ≤ key b) (hb : b ∈ s) :
    [a, b].Sublist (insertSorted key a s) := by
  induction s with
  | nil => simp at hb
  | cons y ys ih =>
    by_cases h : key a ≤ key y
    · simp only [insertSorted, if_pos h]
      exact List.Sublist.cons₂ a (List.singleton_sublist.mpr hb)
    · have hby : b ≠ y := by
        intro he
        subst he
        exact h (le_trans hab (le_refl _))
      have hb' : b ∈ ys := by
        rcases List.mem_cons.mp hb with he | hm
        · exact absurd he hby
        · exact hm
      simp only [insertSorted, if_neg h]
      exact List.Sublist.cons y (ih hb')

/-- The stable sort never swaps a pair that is already in key order: if `a`
appears before `b` and `key a ≤ key b`, the sorted list keeps `a` before `b`. -/
theorem jsSort_pair (key : Nat → Int) (a b : Nat) (l : List Nat)
    (hab : key a ≤ key b) (h : [a, b].Sublist l) :
    [a, b].Sublist (jsSort key l) := by
  induction l with
  | nil => simp at h
  | cons x xs ih =>
    cases h with
    | cons _ h' =>
      exact (ih h').trans (sublist_insertSorted key x (jsSort key xs))
    | cons₂ _ h' =>
      have hb : b ∈ jsSort key xs :=
        (jsSort_perm key xs).mem_iff.mpr (List.singleton_sublist.mp h')
      exact insertSorted_pair key a b (jsSort key xs) hab hb

theorem foldl_add_keeps_front (i : Nat) (ki : Int) (js : List Job) :
    ∀ (Q : JobQueue) (done : List Job),
    (Q.jobs.map Prod.fst ++ js.map Job.id).Nodup →
    i ∈ Q.jobs.map Prod.fst →
    keyOf Q.jobs i = ki →
    i ∈ Q.pending →
    (∀ j ∈ done, j.id ∈ Q.jobs.map Prod.fst ∧ keyOf Q.jobs j.id = effPriority j ∧
      ki ≤ effPriority j ∧ [i, j.id].Sublist Q.pending) →
    ∀ j ∈ done ++ js, ki ≤ effPriority j →
      [i, j.id].Sublist ((js.foldl JobQueue.add Q).pending) := by
  induction js with
  | nil =>
    intro Q done _ _ _ _ hdone j hj _
    rw [List.append_nil] at hj
    exact (hdone j hj).2.2.2
  | cons jn js' ih =>
    intro Q done hnd hik hki hip hdone
    have hfreshn : jn.id ∉ Q.jobs.map Prod.fst := by
      have := List.nodup_append.mp hnd
      intro hmem
      exact this.2.2 hmem (by simp)
    have hlooknone : lookupJob Q.jobs jn.id = none :=
      lookupJob_eq_none_of_not_mem _ hfreshn
    have hset : setJob Q.jobs jn.id jn = Q.jobs ++ [(jn.id, jn)] :=
      setJob_of_lookup_none Q.jobs jn.id jn hlooknone
    have hkeys' : (Q.add jn).jobs.map Prod.fst = Q.jobs.map Prod.fst ++ [jn.id] := by
      show (setJob Q.jobs jn.id jn).map Prod.fst = _
      rw [hset, List.map_append]
      rfl
    have hine : i ≠ jn.id := fun he => hfreshn (he ▸ hik)
    have hkeyi' : keyOf (setJob Q.jobs jn.id jn) i = ki := by
      rw [hset]
      simp only [keyOf, lookupJob_append_ne Q.jobs jn.id jn hine]
      exact hki
    have hkeyn' : keyOf (setJob Q.jobs jn.id jn) jn.id = effPriority jn := by
      rw [hset]
      simp only [keyOf, lookupJob_append_self Q.jobs jn.id jn hlooknone]
    have hpend' : (Q.add jn).pending =
        jsSort (keyOf (setJob Q.jobs jn.id jn)) (Q.pending ++ [jn.id]) := rfl
    have hip' : i ∈ (Q.add jn).pending := by
      rw [hpend', (jsSort_perm _ _).mem_iff]
      exact List.mem_append.mpr (Or.inl hip)
    have hnd' : ((Q.add jn).jobs.map Prod.fst ++ js'.map Job.id).Nodup := by
      rw [hkeys']
      have hperm : List.Perm ((Q.jobs.map Prod.fst ++ [jn.id]) ++ js'.map Job.id)
          (Q.jobs.map Prod.fst ++ (jn.id :: js'.map Job.id)) := by
        rw [List.append_assoc]
        exact List.Perm.append_left _ (List.Perm.refl _)
      refine hperm.nodup_iff.mpr ?_
      simpa using hnd
    have hdonestep : ∀ j ∈ done,
        j.id ∈ (Q.add jn).jobs.map Prod.fst ∧
        keyOf (Q.add jn).jobs j.id = effPriority j ∧
        ki ≤ effPriority j ∧ [i, j.id].Sublist ((Q.add jn).pending) := by
      intro j hjd
      obtain ⟨hjk, hjkey, hjge, hjsub⟩ := hdone j hjd
      have hjne : j.id ≠ jn.id := fun he => hfreshn (he ▸ hjk)
      refine ⟨by rw [hkeys']; exact List.mem_append.mpr (Or.inl hjk), ?_, hjge, ?_⟩
      · show keyOf (setJob Q.jobs jn.id jn) j.id = effPriority j
        rw [hset]
        simp only [keyOf, lookupJob_append_ne Q.jobs jn.id jn hjne]
        simp only [keyOf] at hjkey
        exact hjkey
      · rw [hpend']
        apply jsSort_pair
        · show keyOf (setJob Q.jobs jn.id jn) i ≤ keyOf (setJob Q.jobs jn.id jn) j.id
          rw [hkeyi']
          have : keyOf (setJob Q.jobs jn.id jn) j.id = effPriority j := by
            rw [hset]
            simp only [keyOf, lookupJob_append_ne Q.jobs jn.id jn hjne]
            simp only [keyOf] at hjkey
            exact hjkey
          rw [this]
          exact hjge
        · exact hjsub.trans (List.sublist_append_left _ _)
    by_cases hgen : ki ≤ effPriority jn
    · have hsubn : [i, jn.id].Sublist ((Q.add jn).pending) := by
        rw [hpend']
        apply jsSort_pair
        · rw [hkeyi', hkeyn']
          exact hgen
        · exact List.Sublist.append (List.singleton_sublist.mpr hip) (List.Sublist.refl [jn.id])
      have hdone' : ∀ j ∈ done ++ [jn],
          j.id ∈ (Q.add jn).jobs.map Prod.fst ∧
          keyOf (Q.add jn).jobs j.id = effPriority j ∧
          ki ≤ effPriority j ∧ [i, j.id].Sublist ((Q.add jn).pending) := by
        intro j hj
        rcases List.mem_append.mp hj with hjd | hjn
        · exact hdonestep j hjd
        · have : j = jn := by simpa using hjn
          subst this
          exact ⟨by rw [hkeys']; simp, hkeyn', hgen, hsubn⟩
      have hres := ih (Q.add jn) (done ++ [jn]) hnd'
        (by rw [hkeys']; exact List.mem_append.mpr (Or.inl hik)) hkeyi' hip' hdone'
      intro j hj hkij
      have hj' : j ∈ (done ++ [jn]) ++ js' := by
        rcases List.mem_append.mp hj with hd | hc
        · exact List.mem_append.mpr (Or.inl (List.mem_append.mpr (Or.inl hd)))
        · rcases List.mem_cons.mp hc with rfl | hm
          · exact List.mem_append.mpr (Or.inl (by simp))
          · exact List.mem_append.mpr (Or.inr hm)
      exact hres j hj' hkij
    · have hres := ih (Q.add jn) done hnd'
        (by rw [hkeys']; exact List.mem_append.mpr (Or.inl hik)) hkeyi' hip' hdonestep
      intro j hj hkij
      rcases List.mem_append.mp hj with hd | hc
      · exact hres j (List.mem_append.mpr (Or.inl hd)) hkij
      · rcases List.mem_cons.mp hc with rfl | hm
        · exact absurd hkij hgen
        · exact hres j (List.mem_append.mpr (Or.inr hm)) hkij

/-- C7 (amended): a failed attempt with retries left re-inserts the job id at
the FRONT of its type's pending list with status reset to Pending, and, for an
ARBITRARY sequence of same-type submissions after the retry, the retried job
is dequeued before EACH later submission whose effective priority is greater
than or equal to the retried job's; a later submission with a strictly
smaller (better) effective priority value overtakes it, because every `add`
re-sorts the whole pending list by priority. -/
theorem retry_front_c7 (q : JobQueue) (i : Nat) (jb : Job) (js : List Job)
    (hjb : lookupJob q.jobs i = some jb)
    (_hmem : i ∈ q.running)
    (hfresh : (q.jobs.map Prod.fst ++ js.map Job.id).Nodup) :
    (q.retryRequeue i).pending = i :: q.pending ∧
    lookupJob (q.retryRequeue i).jobs i =
      some { jb with status := Status.pending, retries := jb.retries + 1 } ∧
    ∀ j ∈ js, effPriority jb ≤ effPriority j →
      [i, j.id].Sublist ((js.foldl JobQueue.add (q.retryRequeue i)).pending) := by
  have hpend : (q.retryRequeue i).pending = i :: q.pending := by
    simp only [JobQueue.retryRequeue, hjb]
  have hjobs : (q.retryRequeue i).jobs =
      setJob q.jobs i { jb with status := Status.pending, retries := jb.retries + 1 } := by
    simp only [JobQueue.retryRequeue, hjb]
  have hlook : lookupJob (q.retryRequeue i).jobs i =
      some { jb with status := Status.pending, retries := jb.retries + 1 } := by
    rw [hjobs]
    exact lookupJob_setJob_self _ hjb
  refine ⟨hpend, hlook, ?_⟩
  have hkeys : (q.retryRequeue i).jobs.map Prod.fst = q.jobs.map Prod.fst := by
    rw [hjobs]
    exact setJob_keys_of_lookup_some _ hjb
  have hik : i ∈ q.jobs.map Prod.fst :=
    List.mem_map.mpr ⟨(i, jb), mem_of_lookupJob hjb, rfl⟩
  have hres := foldl_add_keeps_front i (effPriority jb) js (q.retryRequeue i) []
    (by rw [hkeys]; exact hfresh) (by rw [hkeys]; exact hik)
    (by simp only [keyOf, hlook]; rfl)
    (by rw [hpend]; simp)
    (by intro j hj; simp at hj)
  intro j hj hkij
  exact hres j (by simpa using hj) hkij

/-- The queue after: add job 0 at priority 5, dispatch it, requeue it for
retry, then submit job 1 at priority 1. -/
def qC7cex : JobQueue :=
  ((((JobQueue.empty.add (mkSimpleJob 0 5)).getNext).2).retryRequeue 0).add (mkSimpleJob 1 1)

/-- C7 counterexample: after job 0 (priority 5) is requeued for retry, a job
submitted afterwards at priority 1 ends up FIRST in pending (the `add`
re-sorts the list), so the next `GetNext` hands out the new job, not the
retried one — refuting "dequeued before every job of the same type submitted
after the retry". -/
theorem retry_front_c7_cex :
    qC7cex.pending = [1, 0] ∧ ((qC7cex.getNext).1).map Job.id = some 1 := by
  decide

/-- The queue after: add job 0 at priority 5 and dispatch it. -/
def qC7w : JobQueue := ((JobQueue.empty.add (mkSimpleJob 0 5)).getNext).2

/-- The running job 0 as stored in `qC7w`. -/
def jbC7w : Job := { mkSimpleJob 0 5 with status := Status.running }

/-- C7 witness, a MIXED sequence: retry job 0 (effective priority 5), then
submit job 1 at priority 1 and job 2 at priority 5.  Pending ends [1, 0, 2]:
the better-priority job 1 overtakes, while the retried job 0 still precedes
the equal-priority job 2, as the per-job conclusion of the theorem states. -/
theorem retry_front_c7_witness :
    lookupJob qC7w.jobs 0 = some jbC7w ∧
    0 ∈ qC7w.running ∧
    (qC7w.jobs.map Prod.fst ++ [mkSimpleJob 1 1, mkSimpleJob 2 5].map Job.id).Nodup ∧
    (([mkSimpleJob 1 1, mkSimpleJob 2 5].foldl JobQueue.add
       (qC7w.retryRequeue 0)).pending = [1, 0, 2]) ∧
    ((qC7w.retryRequeue 0).pending = 0 :: qC7w.pending ∧
     lookupJob (qC7w.retryRequeue 0).jobs 0 =
       some { jbC7w with status := Status.pending, retries := jbC7w.retries + 1 } ∧
     ∀ j ∈ [mkSimpleJob 1 1, mkSimpleJob 2 5], effPriority jbC7w ≤ effPriority j →
       [0, j.id].Sublist (([mkSimpleJob 1 1, mkSimpleJob 2 5].foldl JobQueue.add
         (qC7w.retryRequeue 0)).pending)) :=
  ⟨by decide, by decide, by decide, by decide,
   retry_front_c7 qC7w 0 jbC7w [mkSimpleJob 1 1, mkSimpleJob 2 5]
     (by decide) (by decide) (by decide)⟩

/-! ### Idempotence of Complete (C8) -/

theorem filter_length_setJob_same_status {m : JMap} {i : Nat} {jb : Job} (jb' : Job)
    (hknd : (m.map Prod.fst).Nodup) (hjb : lookupJob m i = some jb)
    (hst : jb'.status = jb.status) (st : Status) :
    ((setJob m i jb').filter (fun p => p.2.status = st)).length =
      (m.filter (fun p => p.2.status = st)).length := by
  rw [setJob_of_lookup_some jb' hjb, List.filter_map, List.length_map]
  congr 1
  apply List.filter_congr
  intro p hp
  by_cases hpi : p.1 = i
  · have hpentry : p = (i, jb) := by
      have : lookupJob m i = some p.2 := by
        rw [← hpi]
        exact lookupJob_of_mem_nodup hknd (by cases p; simpa using hp)
      rw [hjb] at this
      cases p
      simp_all
    subst hpentry
    simp [hst]
  · simp [Function.comp, hpi]

/-- C8 (amended): calling `Complete` a second time on an already-completed id
(no longer in the running set) never double-counts in `getStats` — all five
counters, in particular `complete` and `total`, are unchanged — and the
status stays Complete; but the call is NOT a no-op on the record: it
overwrites `result` (and `completedAt`) with the new value. -/
theorem complete_idem_c8 (q : JobQueue) (i : Nat) (jb : Job) (r : Int)
    (hknd : (q.jobs.map Prod.fst).Nodup)
    (hjb : lookupJob q.jobs i = some jb) (hst : jb.status = Status.complete)
    (hnr : i ∉ q.running) :
    (q.complete i r).getStats = q.getStats ∧
    lookupJob (q.complete i r).jobs i =
      some { jb with status := Status.complete, result := some r } := by
  set jb2 : Job := { jb with status := Status.complete, result := some r } with hjb2
  have hjobs : (q.complete i r).jobs = setJob q.jobs i jb2 := by
    simp only [JobQueue.complete, hjb, hjb2]
  have hpend : (q.complete i r).pending = q.pending := by
    simp only [JobQueue.complete, hjb]
  have hrun : (q.complete i r).running = q.running := by
    simp only [JobQueue.complete, hjb]
    exact List.erase_of_not_mem hnr
  constructor
  · have hlen : (q.complete i r).jobs.length = q.jobs.length := by
      rw [hjobs, setJob_of_lookup_some _ hjb, List.length_map]
    have hcomp := filter_length_setJob_same_status jb2 hknd hjb
      (by rw [hjb2, hst]) Status.complete
    have hfail := filter_length_setJob_same_status jb2 hknd hjb
      (by rw [hjb2, hst]) Status.failed
    simp only [JobQueue.getStats, hjobs, hpend, hrun]
    rw [hcomp, hfail, setJob_of_lookup_some _ hjb, List.length_map]
  · rw [hjobs]
    exact lookupJob_setJob_self _ hjb

/-- The queue after: add job 0, dispatch it, complete it with result 1. -/
def qC8 : JobQueue := (((JobQueue.empty.add (mkSimpleJob 0 1)).getNext).2).complete 0 1

/-- Job 0 as stored after its first completion. -/
def jbC8 : Job := { mkSimpleJob 0 1 with status := Status.complete, result := some 1 }

/-- C8 counterexample: a second `Complete` with a different result is neither
a no-op nor an error — it silently overwrites the stored result (1 becomes 2),
changing the observable job record. -/
theorem complete_idem_c8_cex :
    (lookupJob ((qC8.complete 0 2).jobs) 0).map Job.result = some (some 2) ∧
    (lookupJob qC8.jobs 0).map Job.result = some (some 1) ∧
    qC8.complete 0 2 ≠ qC8 := by
  refine ⟨by decide, by decide, ?_⟩
  decide

/-- C8 witness: the already-completed job 0, completed a second time. -/
theorem complete_idem_c8_witness :
    (qC8.jobs.map Prod.fst).Nodup ∧
    lookupJob qC8.jobs 0 = some jbC8 ∧
    jbC8.status = Status.complete ∧
    0 ∉ qC8.running ∧
    ((qC8.complete 0 2).getStats = qC8.getStats ∧
     lookupJob (qC8.complete 0 2).jobs 0 =
       some { jbC8 with status := Status.complete, result := some 2 }) :=
  ⟨by decide, by decide, by decide, by decide,
   complete_idem_c8 qC8 0 jbC8 2 (by decide) (by decide) (by decide) (by decide)⟩
